import Mathlib

/-!
# Verification of the `fuzzy_multi_dict` trie store and fuzzy search engine

Shallow embedding of `src/fuzzy_multi_dict/fuzzy_multi_dict.py` (class
`FuzzyMultiDict`).  Python strings are embedded as `List Char`, Python
`dict`s as insertion-ordered association lists (Python 3 dictionaries
preserve insertion order, and the source iterates over `keys()`), Python
`int` values stored in the dictionary as `Int`, and Python `float`
configuration quantities as exact rationals (the `PyFloat` fraction type
below, kept unnormalized so that every arithmetic step is a plain integer
computation).

One deliberate representation choice: each correction's `score` is computed
in the source as `(w * factor) ** 0.5`, a floating-point square root.  We
store the exact rational radicand `w * factor` instead of its square root.
No statement verified in this file depends on the numeric value of a score
or on the relative order of two distinct score sums; every concrete scenario
analysed below produces result lists whose order is independent of the score
representation (singletons, or claims about membership/shape only).

Fallible Python code (raised exceptions) is embedded with `Except PyError`.
-/

set_option maxHeartbeats 1600000

namespace FuzzyMultiDict

/-- Embedded Python strings. -/
abbrev Str := List Char

/-- Values stored in the dictionary.  The repository's tests exercise the
structure with Python `int` values; `Int` keeps Python truthiness
(`bool(v) = (v ≠ 0)`) representable, which line 539 of the source
(`if node.get("value"):`) depends on. -/
abbrev Val := Int

/-- Python truthiness of a stored `int` value: `bool(v)` is `v ≠ 0`. -/
def pyTruthy (v : Val) : Bool := v ≠ 0

/-- Python exceptions raised by the embedded code. -/
inductive PyError where
  | typeError
  | valueError
  | keyError (key : Str)
  | zeroDivisionError
deriving DecidableEq, Repr

instance {ε α : Type} [DecidableEq ε] [DecidableEq α] : DecidableEq (Except ε α) :=
  fun x y =>
    match x, y with
    | .ok a, .ok b =>
      if h : a = b then isTrue (by rw [h]) else isFalse (fun hh => by cases hh; exact h rfl)
    | .error a, .error b =>
      if h : a = b then isTrue (by rw [h]) else isFalse (fun hh => by cases hh; exact h rfl)
    | .ok _, .error _ => isFalse (fun hh => Except.noConfusion hh)
    | .error _, .ok _ => isFalse (fun hh => Except.noConfusion hh)

/-! ## Association-list embedding of Python `dict`

`aGet` is `d.get(k)`; `aSet` is `d[k] = v` (updating in place keeps the
key's position, inserting a fresh key appends, exactly as Python 3 dicts
do); `aKeys` is `list(d.keys())` in insertion order. -/

/-- `d.get(k)` on an insertion-ordered association list. -/
def aGet {α β : Type} [DecidableEq α] : List (α × β) → α → Option β
  | [], _ => none
  | (k, v) :: t, k' => if k = k' then some v else aGet t k'

/-- `d[k] = v`: replace in place if present, else append. -/
def aSet {α β : Type} [DecidableEq α] : List (α × β) → α → β → List (α × β)
  | [], k, v => [(k, v)]
  | (k0, v0) :: t, k, v =>
    if k0 = k then (k0, v) :: t else (k0, v0) :: aSet t k v

/-- `list(d.keys())` in insertion order. -/
def aKeys {α β : Type} : List (α × β) → List α := List.map Prod.fst

/-- `list(d.values())` in insertion order. -/
def aVals {α β : Type} : List (α × β) → List β := List.map Prod.snd

/-! ## Exact rational arithmetic for Python floats

The source stores correction prices, symbol probabilities, symbol distances
and the correction budget as Python floats and combines them by `*`, `-`,
`/` and comparisons.  We embed these quantities as exact fractions over `ℤ`.
The fractions are deliberately left unnormalized: every operation is then a
plain integer computation that the kernel can evaluate (Mathlib's `ℚ`
normalizes through `Nat.gcd`, which is compiled by well-founded recursion
and does not reduce in the kernel).  Comparisons cross-multiply, which is
the rational order whenever both denominators are positive; every fraction
built here has a positive denominator. -/

/-- An exact (unnormalized) fraction `num / den`. -/
structure PyFloat where
  num : ℤ
  den : ℤ
deriving DecidableEq, Repr

namespace PyFloat

/-- The integer `n` as a float. -/
def ofInt (n : ℤ) : PyFloat := ⟨n, 1⟩

/-- The exact quotient `a / b` of two integers. -/
def frac (a b : ℤ) : PyFloat := ⟨a, b⟩

/-- Denominator positivity: every fraction the embedded code builds
satisfies this. -/
def wf (a : PyFloat) : Prop := 0 < a.den

instance (a : PyFloat) : Decidable a.wf := by unfold wf; infer_instance

/-- Multiplication. -/
def mul (a b : PyFloat) : PyFloat := ⟨a.num * b.num, a.den * b.den⟩

/-- Subtraction. -/
def sub (a b : PyFloat) : PyFloat := ⟨a.num * b.den - b.num * a.den, a.den * b.den⟩

/-- Addition. -/
def add (a b : PyFloat) : PyFloat := ⟨a.num * b.den + b.num * a.den, a.den * b.den⟩

/-- Negation (`-x`, used as a descending sort key). -/
def neg (a : PyFloat) : PyFloat := ⟨-a.num, a.den⟩

/-- `a <= b` by cross-multiplication (the rational order for positive
denominators). -/
def le (a b : PyFloat) : Bool := a.num * b.den ≤ b.num * a.den

/-- The value of a fraction as a rational number (specification only). -/
def val (a : PyFloat) : ℚ := (a.num : ℚ) / (a.den : ℚ)

end PyFloat

/-! ## Python's stable sort

`sorted(xs, key=f)` sorts ascending by `f`, keeping the original order of
elements whose keys compare equal.  Insertion sort that inserts each
element before the first element it is `≤` to (having recursed on the
tail) is stable for a total `≤`. -/

/-- Stable insertion of `x` by the comparison `le`. -/
def sInsert {α : Type} (le : α → α → Bool) (x : α) : List α → List α
  | [] => [x]
  | y :: ys => if le x y then x :: y :: ys else y :: sInsert le x ys

/-- Python's `sorted(xs, key=f)` with `le a b = (f a ≤ f b)` (stable,
ascending). -/
def pySorted {α : Type} (le : α → α → Bool) : List α → List α
  | [] => []
  | x :: xs => sInsert le x (pySorted le xs)

/-- Comparison of chars by codepoint (Python's `<` on 1-char strings). -/
def charLe (a b : Char) : Bool := a.toNat ≤ b.toNat

/-! ## The prefix tree (`__prefix_tree`)

Each node holds a `children` dict from single characters to child nodes and
an optional stored `value`.  The Python root carries an extra
`"parent": "ROOT"` entry that no algorithm reads; it is dropped. -/

/-- One trie node: `{"children": {...}, "value": ...}`. -/
inductive Node where
  | mk (children : List (Char × Node)) (value : Option Val)

/-- `node["children"]`. -/
def Node.children : Node → List (Char × Node)
  | .mk cs _ => cs

/-- `node["value"]`. -/
def Node.value : Node → Option Val
  | .mk _ v => v

/-- The empty node `{"children": dict(), "value": None}`. -/
def Node.empty : Node := .mk [] none

mutual

/-- Decidable equality on trie nodes. -/
def Node.decEq : (a b : Node) → Decidable (a = b)
  | .mk cs v, .mk cs' v' =>
    match Node.decEqChildren cs cs' with
    | isTrue h1 =>
      match (inferInstance : DecidableEq (Option Val)) v v' with
      | isTrue h2 => isTrue (by rw [h1, h2])
      | isFalse h2 => isFalse (fun h => by cases h; exact h2 rfl)
    | isFalse h1 => isFalse (fun h => by cases h; exact h1 rfl)

/-- Decidable equality on children lists. -/
def Node.decEqChildren : (a b : List (Char × Node)) → Decidable (a = b)
  | [], [] => isTrue rfl
  | [], _ :: _ => isFalse (fun h => List.noConfusion h)
  | _ :: _, [] => isFalse (fun h => List.noConfusion h)
  | (c, n) :: t, (c', n') :: t' =>
    match (inferInstance : DecidableEq Char) c c' with
    | isTrue hc =>
      match Node.decEq n n' with
      | isTrue hn =>
        match Node.decEqChildren t t' with
        | isTrue ht => isTrue (by rw [hc, hn, ht])
        | isFalse ht => isFalse (fun h => by cases h; exact ht rfl)
      | isFalse hn => isFalse (fun h => by cases h; exact hn rfl)
    | isFalse hc => isFalse (fun h => by cases h; exact hc rfl)

end

instance : DecidableEq Node := Node.decEq

mutual

/-- Size of a node (for recursion measures). -/
def Node.size : Node → ℕ
  | .mk cs _ => 1 + Node.sizeChildren cs

/-- Total size of a children list. -/
def Node.sizeChildren : List (Char × Node) → ℕ
  | [] => 0
  | (_, n) :: t => Node.size n + Node.sizeChildren t

end

/-- `__setitem__`'s node walk: descend along `key`, creating empty nodes as
needed, and at the terminal node replace the value with
`update_value(old, value)` (source lines 324–331). -/
def setItemNode (upd : Option Val → Val → Val) : Node → Str → Val → Node
  | .mk cs v0, [], v => .mk cs (some (upd v0 v))
  | .mk cs v0, c :: rest, v =>
    let child := (aGet cs c).getD Node.empty
    .mk (aSet cs c (setItemNode upd child rest v)) v0

/-- `__apply_string(node, s, position)`: the free longest-exact-prefix walk
(source lines 689–703).  Returns the node reached and the new position. -/
def applyString (node : Node) (s : Str) (position : ℕ) : Node × ℕ :=
  go node (s.drop position) position
where
  /-- Walk the remaining characters one at a time. -/
  go : Node → List Char → ℕ → Node × ℕ
  | n, [], pos => (n, pos)
  | n, c :: rest, pos =>
    match aGet n.children c with
    | none => (n, pos)
    | some n' => go n' rest (pos + 1)

/-- `s[i]` (only used at positions the source has bounds-checked). -/
def charAt (s : Str) (i : ℕ) : Char := s.getD i '?'

/-- `s[a:b]`. -/
def pySlice (s : Str) (a b : ℕ) : Str := (s.take b).drop a

/-- Truthiness of an `Optional[int]`: `None` and `0` are falsy. -/
def optTruthy : Option ℤ → Bool
  | none => false
  | some n => n ≠ 0

/-- One `{"key": ..., "value": ...}` completion leaf. -/
structure Leaf where
  key : Str
  value : Val
deriving DecidableEq, Repr

/-! ## Size lemmas for recursion over the trie -/

/-- A child found in a children list is smaller than the list. -/
theorem aGet_size_lt {cs : List (Char × Node)} {c : Char} {n : Node}
    (h : aGet cs c = some n) : n.size < 1 + Node.sizeChildren cs := by
  induction cs with
  | nil => simp [aGet] at h
  | cons hd tl ih =>
    rw [aGet] at h
    by_cases hc : hd.1 = c
    · simp only [hc, if_pos rfl] at h
      cases h
      simp [Node.sizeChildren]
      omega
    · rw [if_neg hc] at h
      have := ih h
      simp [Node.sizeChildren]
      omega

/-- A child of a node is smaller than the node. -/
theorem child_size_lt {node : Node} {c : Char} {n : Node}
    (h : aGet node.children c = some n) : n.size < node.size := by
  cases node with
  | mk cs v => simpa [Node.size, Node.children] using aGet_size_lt h

/-- The compression walk of `__get_node_leaves` (the inner `while True`,
source lines 1040–1058), with explicit fuel (the walk strictly descends, so
`node.size` fuel suffices; see `walkCompressF_fuel_eq`): descend while the
node has no value and exactly one child, accumulating the path.  Stops at
the first node with a stored value or with a branching/empty children dict. -/
def walkCompressF : ℕ → Node → Str → Node × Str
  | 0, node, accPath => (node, accPath)
  | fuel + 1, node, accPath =>
    match node.value with
    | some _ => (node, accPath)
    | none =>
      match node.children with
      | [(c, n1)] => walkCompressF fuel n1 (accPath ++ [c])
      | _ => (node, accPath)

/-- The compression walk with its canonical (sufficient) fuel. -/
def walkCompress (node : Node) (accPath : Str) : Node × Str :=
  walkCompressF node.size node accPath

/-- A single child is strictly smaller than its parent. -/
theorem singleton_child_size_lt {node : Node} {c : Char} {n1 : Node}
    (h : node.children = [(c, n1)]) : n1.size < node.size := by
  cases node with
  | mk cs v =>
    simp only [Node.children] at h; subst h
    simp [Node.size, Node.sizeChildren]

/-- Every node has positive size. -/
theorem Node.size_pos (node : Node) : 0 < node.size := by
  cases node with
  | mk cs v => simp [Node.size]

/-- The compression walk is fuel-insensitive above `node.size`. -/
theorem walkCompressF_fuel_eq :
    ∀ fuel fuel' (node : Node) (p : Str), node.size ≤ fuel → node.size ≤ fuel' →
      walkCompressF fuel node p = walkCompressF fuel' node p := by
  intro fuel
  induction fuel using Nat.strong_induction_on with
  | _ fuel ih =>
    intro fuel' node p hf hf'
    have hpos : 0 < node.size := Node.size_pos node
    cases fuel with
    | zero => omega
    | succ f =>
      cases fuel' with
      | zero => omega
      | succ f' =>
        rw [walkCompressF, walkCompressF]
        cases hv : node.value with
        | some v => rfl
        | none =>
          cases hcs : node.children with
          | nil => rfl
          | cons hd tl =>
            cases hd with
            | mk c n1 =>
              cases tl with
              | nil =>
                have h1 : n1.size < node.size := singleton_child_size_lt hcs
                exact ih f (by omega) f' n1 (p ++ [c]) (by omega) (by omega)
              | cons hd2 tl2 => rfl

/-- The compression walk never grows the node. -/
theorem walkCompressF_size_le :
    ∀ fuel (node : Node) (p : Str), (walkCompressF fuel node p).1.size ≤ node.size := by
  intro fuel
  induction fuel with
  | zero => intro node p; exact le_refl _
  | succ f ih =>
    intro node p
    rw [walkCompressF]
    cases hv : node.value with
    | some v => exact le_refl _
    | none =>
      cases hcs : node.children with
      | nil => exact le_refl _
      | cons hd tl =>
        cases hd with
        | mk c n1 =>
          cases tl with
          | nil => exact le_trans (ih n1 (p ++ [c])) (le_of_lt (singleton_child_size_lt hcs))
          | cons hd2 tl2 => exact le_refl _

/-- The compression walk never grows the node (canonical fuel). -/
theorem walkCompress_size_le (node : Node) (p : Str) :
    (walkCompress node p).1.size ≤ node.size :=
  walkCompressF_size_le node.size node p

mutual

/-- `__get_node_leaves(node, path, topn)` (source lines 1012–1062), with
explicit fuel (`(node.size + 1)²` suffices, see `getNodeLeavesF_fuel_eq`):
collect value-bearing descendants strictly below `node`, children in
codepoint order, with path compression; `topn` is decremented by direct
appends only (the recursive calls receive the current `topn` but the
caller's `topn` is not reduced by what the recursion returned, exactly as
in the source). -/
def getNodeLeavesF : ℕ → Node → Str → ℤ → List Leaf
  | 0, _, _, _ => []
  | fuel + 1, node, path, topn =>
    if topn ≤ 0 then []
    else leavesGoF fuel (pySorted charLe (aKeys node.children)) node path topn []

/-- The `for x in sorted(node["children"].keys())` loop of
`__get_node_leaves`, threading the accumulated list and the local `topn`. -/
def leavesGoF : ℕ → List Char → Node → Str → ℤ → List Leaf → List Leaf
  | 0, _, _, _, _, acc => acc
  | fuel + 1, cs, node, path, topn, acc =>
    match cs with
    | [] => acc
    | c :: rest =>
      match aGet node.children c with
      | none => leavesGoF fuel rest node path topn acc  -- unreachable: keys come from the dict
      | some n0 =>
        let w := walkCompress n0 [c]
        match w.1.value with
        | some v =>
          let acc1 := acc ++ [⟨path ++ w.2, v⟩]
          if topn - 1 ≤ 0 then acc1
          else leavesGoF fuel rest node path (topn - 1)
            (acc1 ++ getNodeLeavesF fuel w.1 (path ++ w.2) (topn - 1))
        | none =>
          leavesGoF fuel rest node path topn (acc ++ getNodeLeavesF fuel w.1 (path ++ w.2) topn)

end

/-- `__get_node_leaves` with its canonical (sufficient) fuel. -/
def getNodeLeaves (node : Node) (path : Str) (topn : ℤ) : List Leaf :=
  getNodeLeavesF ((node.size + 1) * (node.size + 1)) node path topn

/-- A children list has at most `sizeChildren` entries. -/
theorem length_le_sizeChildren : ∀ cs : List (Char × Node), cs.length ≤ Node.sizeChildren cs := by
  intro cs
  induction cs with
  | nil => simp [Node.sizeChildren]
  | cons hd tl ih =>
    have := Node.size_pos hd.2
    calc (hd :: tl).length = tl.length + 1 := by simp
    _ ≤ Node.sizeChildren tl + hd.2.size := by omega
    _ = Node.sizeChildren (hd :: tl) := by
        cases hd; simp [Node.sizeChildren]; omega

/-- `sInsert` grows the length by one. -/
theorem sInsert_length {α : Type} (le : α → α → Bool) (x : α) :
    ∀ l : List α, (sInsert le x l).length = l.length + 1 := by
  intro l
  induction l with
  | nil => rfl
  | cons y ys ih =>
    rw [sInsert]
    by_cases h : le x y = true
    · simp [h]
    · simp only [Bool.not_eq_true] at h
      simp [h, ih]

/-- `pySorted` preserves length. -/
theorem pySorted_length {α : Type} (le : α → α → Bool) :
    ∀ l : List α, (pySorted le l).length = l.length := by
  intro l
  induction l with
  | nil => rfl
  | cons y ys ih => rw [pySorted, sInsert_length, ih]; rfl

/-- Unfolding equation of `leavesGoF` on a cons cell whose key is absent
from the children dict (the loop's unreachable guard branch). -/
theorem leavesGoF_cons_none (f : ℕ) (c : Char) (rest : List Char) (node : Node)
    (path : Str) (topn : ℤ) (acc : List Leaf) (hg : aGet node.children c = none) :
    leavesGoF (f + 1) (c :: rest) node path topn acc =
      leavesGoF f rest node path topn acc := by
  conv_lhs => rw [leavesGoF.eq_def]
  simp only [hg]

/-- Unfolding equation of `leavesGoF` on a cons cell whose key maps to a
child node. -/
theorem leavesGoF_cons_some (f : ℕ) (c : Char) (rest : List Char) (node : Node)
    (path : Str) (topn : ℤ) (acc : List Leaf) (n0 : Node)
    (hg : aGet node.children c = some n0) :
    leavesGoF (f + 1) (c :: rest) node path topn acc =
      match (walkCompress n0 [c]).1.value with
      | some v =>
        if topn - 1 ≤ 0 then acc ++ [⟨path ++ (walkCompress n0 [c]).2, v⟩]
        else leavesGoF f rest node path (topn - 1)
          ((acc ++ [⟨path ++ (walkCompress n0 [c]).2, v⟩]) ++
            getNodeLeavesF f (walkCompress n0 [c]).1 (path ++ (walkCompress n0 [c]).2) (topn - 1))
      | none => leavesGoF f rest node path topn
          (acc ++ getNodeLeavesF f (walkCompress n0 [c]).1 (path ++ (walkCompress n0 [c]).2) topn) := by
  conv_lhs => rw [leavesGoF.eq_def]
  simp only [hg]

/-- The leaf enumeration and its child loop are fuel-insensitive above
`(node.size + 1)²` and `node.size² + cs.length + 1` respectively: the
canonical fuel of `getNodeLeaves` is sufficient, so the fuel-based
embedding agrees with the source's unbounded recursion. -/
theorem getNodeLeavesF_fuel_eq :
    ∀ fuel,
      (∀ fuel' (node : Node) (path : Str) (topn : ℤ),
        (node.size + 1) * (node.size + 1) ≤ fuel →
        (node.size + 1) * (node.size + 1) ≤ fuel' →
        getNodeLeavesF fuel node path topn = getNodeLeavesF fuel' node path topn) ∧
      (∀ fuel' (cs : List Char) (node : Node) (path : Str) (topn : ℤ) (acc : List Leaf),
        node.size * node.size + cs.length + 1 ≤ fuel →
        node.size * node.size + cs.length + 1 ≤ fuel' →
        leavesGoF fuel cs node path topn acc = leavesGoF fuel' cs node path topn acc) := by
  intro fuel
  induction fuel using Nat.strong_induction_on with
  | _ fuel ih =>
    constructor
    · intro fuel' node path topn hf hf'
      have hs := Node.size_pos node
      cases fuel with
      | zero => nlinarith
      | succ f =>
        cases fuel' with
        | zero => nlinarith
        | succ f' =>
          rw [getNodeLeavesF.eq_def, getNodeLeavesF.eq_def]
          simp only []
          by_cases ht : topn ≤ 0
          · simp [ht]
          · simp only [if_neg ht]
            have hlen : (pySorted charLe (aKeys node.children)).length + 1 ≤ node.size := by
              have h1 : (aKeys node.children).length = node.children.length := by
                simp [aKeys]
              have h2 := length_le_sizeChildren node.children
              have h3 : node.size = 1 + Node.sizeChildren node.children := by
                cases node with
                | mk cs v => simp [Node.size, Node.children]
              rw [pySorted_length, h1]
              omega
            have hsq : (node.size + 1) * (node.size + 1) =
                node.size * node.size + 2 * node.size + 1 := by ring
            have hQf : node.size * node.size + (pySorted charLe (aKeys node.children)).length + 1 ≤ f := by
              omega
            have hQf' : node.size * node.size + (pySorted charLe (aKeys node.children)).length + 1 ≤ f' := by
              omega
            exact (ih f (by omega)).2 f' (pySorted charLe (aKeys node.children))
              node path topn [] hQf hQf' 
    · intro fuel' cs node path topn acc hf hf'
      have hs := Node.size_pos node
      cases fuel with
      | zero => omega
      | succ f =>
        cases fuel' with
        | zero => omega
        | succ f' =>
          cases cs with
          | nil => rfl
          | cons c rest =>
            have hrest : node.size * node.size + rest.length + 1 ≤ f ∧
                node.size * node.size + rest.length + 1 ≤ f' := by
              simp only [List.length_cons] at hf hf'
              omega
            cases hg : aGet node.children c with
            | none =>
              rw [leavesGoF_cons_none f c rest node path topn acc hg,
                  leavesGoF_cons_none f' c rest node path topn acc hg]
              exact (ih f (by omega)).2 f' rest node path topn acc hrest.1 hrest.2
            | some n0 =>
              have hw : (walkCompress n0 [c]).1.size < node.size :=
                lt_of_le_of_lt (walkCompress_size_le n0 [c]) (child_size_lt hg)
              have hgs : ((walkCompress n0 [c]).1.size + 1) * ((walkCompress n0 [c]).1.size + 1) ≤
                  node.size * node.size := Nat.mul_le_mul hw hw
              have hgb : ((walkCompress n0 [c]).1.size + 1) * ((walkCompress n0 [c]).1.size + 1) ≤ f ∧
                  ((walkCompress n0 [c]).1.size + 1) * ((walkCompress n0 [c]).1.size + 1) ≤ f' := by
                simp only [List.length_cons] at hf hf'
                omega
              rw [leavesGoF_cons_some f c rest node path topn acc n0 hg,
                  leavesGoF_cons_some f' c rest node path topn acc n0 hg]
              cases hv : (walkCompress n0 [c]).1.value with
              | some v =>
                simp only []
                by_cases ht : topn - 1 ≤ 0
                · simp [ht]
                · simp only [if_neg ht]
                  rw [(ih f (by omega)).1 f' (walkCompress n0 [c]).1
                        (path ++ (walkCompress n0 [c]).2) (topn - 1) hgb.1 hgb.2,
                      (ih f (by omega)).2 f' rest node path (topn - 1) _ hrest.1 hrest.2]
              | none =>
                simp only []
                rw [(ih f (by omega)).1 f' (walkCompress n0 [c]).1
                      (path ++ (walkCompress n0 [c]).2) topn hgb.1 hgb.2,
                    (ih f (by omega)).2 f' rest node path topn _ hrest.1 hrest.2]

/-! ## The dictionary object and its cost model -/

/-- The `CorrectionPrice` namedtuple. -/
structure CorrectionPrice where
  transposition : PyFloat
  deletion : PyFloat
  substitution : PyFloat
  insertion : PyFloat
deriving DecidableEq

/-- The `FuzzyMultiDict` object state: the prefix tree, the merge callback
and the cost-model fields. -/
structure FMD where
  prefixTree : Node
  updateValue : Option Val → Val → Val
  maxCorrectionsValue : PyFloat
  correctionPrice : CorrectionPrice
  symbolProbability : List (Char × PyFloat)
  defaultSymbolProbability : PyFloat
  symbolsDistance : List ((Char × Char) × PyFloat)
  defaultSymbolsDistance : PyFloat

/-- `get_symbols_distance` (source lines 1142–1176): 0 on equal symbols,
else table value, else the default. -/
def FMD.getSymbolsDistance (d : FMD) (x y : Char) : PyFloat :=
  if x = y then PyFloat.ofInt 0
  else (aGet d.symbolsDistance (x, y)).getD d.defaultSymbolsDistance

/-- `get_symbol_probability` (source lines 1178–1203). -/
def FMD.getSymbolProbability (d : FMD) (c : Char) : PyFloat :=
  (aGet d.symbolProbability c).getD d.defaultSymbolProbability

/-- `d[key] = value` (`__setitem__`, source lines 305–331). -/
def setItem (d : FMD) (key : Str) (value : Val) : FMD :=
  { d with prefixTree := setItemNode d.updateValue d.prefixTree key value }

/-- The default dictionary: empty tree, replacing merge callback, and the
constructor's default cost model (`__init__`, source lines 22–75). -/
def defaultFMD : FMD where
  prefixTree := Node.empty
  updateValue := fun _ y => y
  maxCorrectionsValue := PyFloat.ofInt 0
  correctionPrice := ⟨PyFloat.ofInt 1, PyFloat.ofInt 1, PyFloat.ofInt 1, PyFloat.ofInt 1⟩
  symbolProbability := []
  defaultSymbolProbability := PyFloat.frac 1 100000
  symbolsDistance := []
  defaultSymbolsDistance := PyFloat.ofInt 1

/-! ## Search states, corrections and results -/

/-- One recorded correction
`{"correction": <text>, "score": <score>, "position": <position>}`.
The stored `score` is the exact radicand of the source's
`(...) ** 0.5` (see the file header). -/
structure Correction where
  descr : Str
  score : PyFloat
  position : ℕ
deriving DecidableEq, Repr

/-- `f'insertion of "{c}"'`. -/
def descrInsertion (c : Char) : Str :=
  "insertion of \"".data ++ [c] ++ "\"".data

/-- `f'deletion of "{c}"'`. -/
def descrDeletion (c : Char) : Str :=
  "deletion of \"".data ++ [c] ++ "\"".data

/-- `f'substitution "{a}" for "{b}"'`. -/
def descrSubstitution (a b : Char) : Str :=
  "substitution \"".data ++ [a] ++ "\" for \"".data ++ [b] ++ "\"".data

/-- `f'transposition of symbols "{s}"'`. -/
def descrTransposition (s : Str) : Str :=
  "transposition of symbols \"".data ++ s ++ "\"".data

/-- One entry of the per-query `result` dict
(`{"value": ..., "key": ..., "correction": ..., "leaves": ...}`). -/
structure Entry where
  value : Option Val
  key : Str
  correction : List Correction
  leaves : List Leaf
deriving DecidableEq, Repr

/-- One element of `rows_to_process`: `(position, path, node, correction)`. -/
structure Row where
  position : ℕ
  path : Str
  node : Node
  correction : List Correction
deriving DecidableEq

/-- The `processed` memo dict: `(position, path) → fewest corrections`. -/
abbrev Processed := List ((ℕ × Str) × ℕ)

/-- The result dict, keyed by matched path, in insertion order. -/
abbrev ResultDict := List (Str × Entry)

/-- The enqueue pattern every `__apply_*` helper repeats (e.g. source lines
724–727): append the candidate row and record its correction count in
`processed` when no memo entry exists or the memoized count is strictly
larger; otherwise drop the candidate. -/
def tryEnqueue (rows : List Row) (processed : Processed) (pos : ℕ) (path : Str)
    (node : Node) (corr : List Correction) : List Row × Processed :=
  match aGet processed (pos, path) with
  | none => (rows ++ [⟨pos, path, node, corr⟩], aSet processed (pos, path) corr.length)
  | some m =>
    if m > corr.length then
      (rows ++ [⟨pos, path, node, corr⟩], aSet processed (pos, path) corr.length)
    else (rows, processed)

/-- `__apply_as_is` (source lines 705–738): when at least two query
characters remain and the node has a child labelled with the current query
character, enqueue the one-step successor and the free-exact-walk
successor, both with the unchanged correction list. -/
def applyAsIs (node : Node) (path key : Str) (position : ℕ)
    (processed : Processed) (correction : List Correction) :
    List Row × Processed :=
  if position + 1 < key.length ∧ 0 < node.children.length then
    match aGet node.children (charAt key position) with
    | none => ([], processed)
    | some n1 =>
      let o1 :=
        tryEnqueue [] processed (position + 1) (path ++ [charAt key position]) n1 correction
      let w := applyString node key position
      tryEnqueue o1.1 o1.2 w.2 (path ++ pySlice key position w.2) w.1 correction
  else ([], processed)

/-- `__apply_transposition` (source lines 740–796).  The second enqueue
reproduces the source's `path + path + ...` (line 784–790), which
duplicates the matched path in the recorded key. -/
def applyTransposition (d : FMD) (node : Node) (path query : Str) (position : ℕ)
    (processed : Processed) (correction : List Correction) :
    List Row × Processed :=
  if position + 1 ≥ query.length then ([], processed)
  else
    match aGet node.children (charAt query (position + 1)) with
    | none => ([], processed)
    | some nMid =>
      match aGet nMid.children (charAt query position) with
      | none => ([], processed)
      | some n1 =>
        let score := PyFloat.mul d.correctionPrice.transposition
          (d.getSymbolsDistance (charAt query position) (charAt query (position + 1)))
        let corr1 := correction ++
          [⟨descrTransposition (pySlice query position (position + 2)), score, position⟩]
        let o1 := tryEnqueue [] processed (position + 2)
          (path ++ [charAt query (position + 1), charAt query position]) n1 corr1
        let w := applyString n1 query (position + 2)
        tryEnqueue o1.1 o1.2 w.2
          (path ++ path ++ [charAt query (position + 1), charAt query position] ++
            pySlice query (position + 2) w.2) w.1 corr1

/-- The `for __c in __node_children` loop of `__apply_insertion`. -/
def applyInsertionGo (d : FMD) (node : Node) (path query : Str) (position : ℕ)
    (correction : List Correction) (cs : List Char) (processed : Processed)
    (rows : List Row) : List Row × Processed :=
  match cs with
  | [] => (rows, processed)
  | c :: rest =>
    match aGet node.children c with
    | none => applyInsertionGo d node path query position correction rest processed rows
    | some n1 =>
      let score := PyFloat.mul d.correctionPrice.insertion
        (PyFloat.sub (PyFloat.ofInt 1) (d.getSymbolProbability c))
      let corr1 := correction ++ [⟨descrInsertion c, score, position⟩]
      let o1 := tryEnqueue rows processed position (path ++ [c]) n1 corr1
      let w := applyString n1 query position
      let o2 := tryEnqueue o1.1 o1.2 w.2
        (path ++ [c] ++ pySlice query position w.2) w.1 corr1
      applyInsertionGo d node path query position correction rest o2.2 o2.1

/-- `__apply_insertion` (source lines 798–857): for every child of the
current node, in descending symbol-probability order (stable on ties),
enqueue the same query position one trie level deeper, plus the free walk. -/
def applyInsertion (d : FMD) (node : Node) (path query : Str) (position : ℕ)
    (processed : Processed) (correction : List Correction) :
    List Row × Processed :=
  let cs := aKeys node.children
  if cs.length = 0 then ([], processed)
  else
    applyInsertionGo d node path query position correction
      (pySorted (fun a b => PyFloat.le (PyFloat.neg (d.getSymbolProbability a))
        (PyFloat.neg (d.getSymbolProbability b))) cs) processed []

/-- `__apply_deletion` (source lines 859–901): skip the current query
character, staying on the same node, plus the free walk. -/
def applyDeletion (d : FMD) (node : Node) (path query : Str) (position : ℕ)
    (processed : Processed) (correction : List Correction) :
    List Row × Processed :=
  let score := PyFloat.mul d.correctionPrice.deletion
    (PyFloat.sub (PyFloat.ofInt 1) (d.getSymbolProbability (charAt query position)))
  let corr1 := correction ++ [⟨descrDeletion (charAt query position), score, position⟩]
  let o1 := tryEnqueue [] processed (position + 1) path node corr1
  let w := applyString node query (position + 1)
  tryEnqueue o1.1 o1.2 w.2 (path ++ pySlice query (position + 1) w.2) w.1 corr1

/-- The `for __c in __node_children` loop of `__apply_substitution`. -/
def applySubstitutionGo (d : FMD) (node : Node) (path query : Str) (position : ℕ)
    (correction : List Correction) (cs : List Char) (processed : Processed)
    (rows : List Row) : List Row × Processed :=
  match cs with
  | [] => (rows, processed)
  | c :: rest =>
    if c = charAt query position then
      applySubstitutionGo d node path query position correction rest processed rows
    else
      match aGet node.children c with
      | none => applySubstitutionGo d node path query position correction rest processed rows
      | some n1 =>
        let score := PyFloat.mul d.correctionPrice.substitution
          (d.getSymbolsDistance (charAt query position) c)
        let corr1 := correction ++ [⟨descrSubstitution (charAt query position) c, score, position⟩]
        let o1 := tryEnqueue rows processed (position + 1) (path ++ [c]) n1 corr1
        let w := applyString n1 query (position + 1)
        let o2 := tryEnqueue o1.1 o1.2 w.2
          (path ++ [c] ++ pySlice query (position + 1) w.2) w.1 corr1
        applySubstitutionGo d node path query position correction rest o2.2 o2.1

/-- `__apply_substitution` (source lines 903–956): for every child other
than the current query character, in (codepoint, then distance) stable
order, advance one query position into that child, plus the free walk. -/
def applySubstitution (d : FMD) (node : Node) (path query : Str) (position : ℕ)
    (processed : Processed) (correction : List Correction) :
    List Row × Processed :=
  let cs := aKeys node.children
  let sortedCs :=
    if 0 < cs.length then
      pySorted (fun a b => PyFloat.le (d.getSymbolsDistance a (charAt query position))
          (d.getSymbolsDistance b (charAt query position)))
        (pySorted charLe cs)
    else cs
  applySubstitutionGo d node path query position correction sortedCs processed []

/-- `__check_value` (source lines 978–1010): at `position = len(query)`,
build the result-dict entry for this path; its `value` is filled only if
the node stores a value and the current entry for the path (if any) used
strictly more corrections. -/
def checkValue (node : Node) (path query : Str) (position : ℕ)
    (correction : List Correction) (result : ResultDict)
    (topnLeaves : Option ℤ) : Option Entry :=
  if position ≠ query.length then none
  else
    let base : Entry := ⟨none, path, correction, []⟩
    let e1 : Entry :=
      match node.value with
      | some v =>
        match aGet result path with
        | none => { base with value := some v }
        | some row =>
          if row.correction.length > correction.length then { base with value := some v }
          else base
      | none => base
    some (match topnLeaves with
      | some tl => if tl ≠ 0 then { e1 with leaves := getNodeLeaves node path tl } else e1
      | none => e1)

/-- `sum([_["score"] for _ in corrections])` (source lines 1064–1075). -/
def totalCorrectionsScore (corrections : List Correction) : PyFloat :=
  (corrections.map Correction.score).foldl PyFloat.add (PyFloat.ofInt 0)

/-- `__prepare_result` (source lines 958–976): drop value-less entries
unless leaves were requested, sort by total correction score (stably, in
result-dict insertion order on ties), and truncate to `topn` if truthy. -/
def prepareResult (result : ResultDict) (topn topnLeaves : Option ℤ) : List Entry :=
  let result1 :=
    if optTruthy topnLeaves = false then result.filter (fun kv => kv.2.value.isSome)
    else result
  if result1.length = 0 then []
  else
    let sortedR := pySorted (fun a b : Entry =>
      PyFloat.le (totalCorrectionsScore a.correction) (totalCorrectionsScore b.correction))
      (aVals result1)
    match topn with
    | some n => if n ≠ 0 then sortedR.take n.toNat else sortedR
    | none => sortedR

/-! ## The wave loop of `__get` (source lines 551–644) -/

/-- The mutable state of the wave loop: the result dict, the memo dict and
the rows still to process (for `waveStep`, the rows of the current wave;
after it, the rows of the next wave). -/
structure WState where
  result : ResultDict
  processed : Processed
  rows : List Row

/-- The body of `for (position, path, node, correction) in rows_to_process`
for one row: record a terminal match, then extend the next wave through
`__apply_as_is` and the four budget-guarded correction helpers. -/
def processRow (d : FMD) (query : Str) (topnLeaves : Option ℤ)
    (st : ResultDict × Processed × List Row) (r : Row) :
    ResultDict × Processed × List Row :=
  let result := st.1
  let processed := st.2.1
  let rowsAcc := st.2.2
  let result1 :=
    match checkValue r.node r.path query r.position r.correction result topnLeaves with
    | some e => aSet result r.path e
    | none => result
  let oA := applyAsIs r.node r.path query r.position processed r.correction
  let rel : PyFloat := PyFloat.frac ((r.correction.length : ℤ) + 1) (query.length : ℤ)
  let oB :=
    if PyFloat.le rel d.maxCorrectionsValue ∧
        ((optTruthy topnLeaves ∧ r.position < query.length) ∨ topnLeaves = none) then
      applyInsertion d r.node r.path query r.position oA.2 r.correction
    else ([], oA.2)
  let oC :=
    if r.position < query.length ∧ PyFloat.le rel d.maxCorrectionsValue then
      applySubstitution d r.node r.path query r.position oB.2 r.correction
    else ([], oB.2)
  let oD :=
    if r.position < query.length ∧ PyFloat.le rel d.maxCorrectionsValue then
      applyDeletion d r.node r.path query r.position oC.2 r.correction
    else ([], oC.2)
  let oE :=
    if r.position + 1 < query.length ∧
        charAt query r.position ≠ charAt query (r.position + 1) ∧
        PyFloat.le rel d.maxCorrectionsValue then
      applyTransposition d r.node r.path query r.position oD.2 r.correction
    else ([], oD.2)
  (result1, oE.2, rowsAcc ++ oA.1 ++ oB.1 ++ oC.1 ++ oD.1 ++ oE.1)

/-- One wave: process every pending row, collecting the next wave. -/
def waveStep (d : FMD) (query : Str) (topnLeaves : Option ℤ) (s : WState) : WState :=
  let out := s.rows.foldl (processRow d query topnLeaves) (s.result, s.processed, [])
  ⟨out.1, out.2.1, out.2.2⟩

/-- The `while True` wave loop, with explicit fuel: stop as soon as a wave
produces no successor rows.  `waveFuel` below is proven sufficient. -/
def getLoop (d : FMD) (query : Str) (topnLeaves : Option ℤ) :
    ℕ → WState → WState
  | 0, s => s
  | fuel + 1, s =>
    let s' := waveStep d query topnLeaves s
    if s'.rows.isEmpty then s' else getLoop d query topnLeaves fuel s'

/-- Fuel sufficient for the wave loop (strictly more than the largest
possible value of the wave measure, see `rowMeasure` below). -/
def waveFuel (query : Str) : ℕ :=
  query.length * (query.length + 2) + query.length + 2

/-- `__get` (source lines 498–644).  An empty query that does not take the
early exact-match return reaches `(len(correction) + 1) / len(query)` on
the first processed row and raises `ZeroDivisionError`. -/
def getInner (d : FMD) (query : Str) (topn topnLeaves : Option ℤ) :
    Except PyError (List Entry) :=
  let w0 := applyString d.prefixTree query 0
  let node := w0.1
  let position := w0.2
  if position = query.length ∧ (node.value.isSome ∨ optTruthy topnLeaves) then
    let e0 : Entry := ⟨none, query, [], []⟩
    let e1 := match node.value with
      | some v => if pyTruthy v then { e0 with value := some v } else e0
      | none => e0
    let e2 := match topnLeaves with
      | some tl => if tl ≠ 0 then { e1 with leaves := getNodeLeaves node query tl } else e1
      | none => e1
    .ok (prepareResult [(query, e2)] topn topnLeaves)
  else if query.length = 0 then
    .error .zeroDivisionError
  else
    let seed1 : Row := ⟨position, query.take position, node, []⟩
    let seed2 : Row := ⟨0, [], d.prefixTree, []⟩
    let proc0 : Processed := aSet (aSet [] (position, query.take position) 0) (0, []) 0
    let s1 := getLoop d query topnLeaves (waveFuel query) ⟨[], proc0, [seed1, seed2]⟩
    .ok (prepareResult s1.result topn topnLeaves)

/-- `get(query, topn)` (source lines 333–391). -/
def pyGet (d : FMD) (query : Str) (topn : Option ℤ) : Except PyError (List Entry) :=
  getInner d query topn none

/-- `__getitem__` (source lines 646–687): first result's value, or
`KeyError` when the result list is empty. -/
def getItem (d : FMD) (query : Str) : Except PyError (Option Val) :=
  match pyGet d query none with
  | .error e => .error e
  | .ok value =>
    match value with
    | [] => .error (.keyError query)
    | e :: _ => .ok e.value

/-! ## `search(query, topn)` (source lines 393–496) -/

/-- One entry of the `search` output:
`{"value": ..., "key": ..., "correction": ..., "is_leaf": ...}`. -/
structure SEntry where
  value : Option Val
  key : Str
  correction : List Correction
  is_leaf : Bool
deriving DecidableEq, Repr

/-- The first `for item in __result` loop of `search`: emit distinct-by-key
non-leaf matches (skipping value-less entries), stopping once `topn` slots
are filled (the `Bool` reports the early `return`). -/
def searchLoop1 (topn : ℤ) :
    List Entry → List SEntry → List Str → List SEntry × List Str × Bool
  | [], top, keys => (top, keys, false)
  | item :: rest, top, keys =>
    if item.value = none ∨ item.key ∈ keys then searchLoop1 topn rest top keys
    else
      let top1 := top ++ [⟨item.value, item.key, item.correction, false⟩]
      let keys1 := item.key :: keys
      if topn ≤ (top1.length : ℤ) then (top1, keys1, true)
      else searchLoop1 topn rest top1 keys1

/-- The inner `for leaf_item in item["leaves"]` loop of `search`: emit
not-yet-seen completion leaves, carrying the matched item's correction
list, stopping once `topn` slots are filled. -/
def searchLeafLoop (topn : ℤ) (corr : List Correction) :
    List Leaf → List SEntry → List Str → List SEntry × List Str × Bool
  | [], top, keys => (top, keys, false)
  | leaf :: rest, top, keys =>
    if leaf.key ∈ keys then searchLeafLoop topn corr rest top keys
    else
      let top1 := top ++ [⟨some leaf.value, leaf.key, corr, true⟩]
      let keys1 := leaf.key :: keys
      if topn ≤ (top1.length : ℤ) then (top1, keys1, true)
      else searchLeafLoop topn corr rest top1 keys1

/-- The second `for item in __result` loop of `search`, walking each
matched entry's leaves. -/
def searchLoop2 (topn : ℤ) :
    List Entry → List SEntry → List Str → List SEntry
  | [], top, _ => top
  | item :: rest, top, keys =>
    if item.leaves.isEmpty then searchLoop2 topn rest top keys
    else
      let out := searchLeafLoop topn item.correction item.leaves top keys
      if out.2.2 then out.1 else searchLoop2 topn rest out.1 out.2.1

/-- `search(query, topn)` (source lines 393–496): fuzzy matches first, then
completion leaves, globally deduplicated by key, at most `topn` entries. -/
def pySearch (d : FMD) (query : Str) (topn : ℤ) : Except PyError (List SEntry) :=
  match getInner d query (some topn) (some topn) with
  | .error e => .error e
  | .ok res =>
    let out1 := searchLoop1 topn res [] []
    if out1.2.2 then .ok out1.1
    else .ok (searchLoop2 topn res out1.1 out1.2.1)

/-! ## Example stores and spec-side predicates -/

/-- Build a store with the given budget by inserting the listed pairs in
order (each insertion is `d[k] = v` with the default merge callback). -/
def buildStore (b : PyFloat) (kvs : List (Str × Val)) : FMD :=
  kvs.foldl (fun d kv => setItem d kv.1 kv.2)
    { defaultFMD with maxCorrectionsValue := b }

/-- Spec-side predicate (for claim C9): `k` is a key actually stored in
`d` — the exact walk of `k` from the root consumes all of `k` and ends at
a value-bearing node. -/
def isStoredKey (d : FMD) (k : Str) : Bool :=
  ((applyString d.prefixTree k 0).2 == k.length) &&
    (applyString d.prefixTree k 0).1.value.isSome

/-! ## The claims -/

/-- C1: the claim states that for every key `k` and every value `v`,
after `d[k] = v` (sole insertion for `k`, default merge policy), `get(k)`
returns a non-empty list whose first entry is `(v, k, no corrections)`.
The code breaks this for falsy values: line 528 enters the exact-match
branch because the stored value `is not None`, but line 539
(`if node.get("value"):`) tests truthiness, so for `v = 0` the entry keeps
`value = None` and `__prepare_result` filters it out: `get(k)` returns
`[]` even though the terminal node does store `0`.  This theorem evaluates
the code at that failing input. -/
theorem claim_C1_bug_eval :
    pyGet (setItem defaultFMD "a".data 0) "a".data none = Except.ok [] ∧
    (applyString (setItem defaultFMD "a".data 0).prefixTree "a".data 0).1.value = some 0 ∧
    (applyString (setItem defaultFMD "a".data 0).prefixTree "a".data 0).2 = 1 := by
  decide

/-- C2: in the store `{"first": 1, "second": 2, "third": 3}` with
`max_corrections_value = 1/2`, `get("frst")` returns exactly one entry,
with value `1`, key `"first"`, and a single correction, the insertion of
`"i"` at query position 1. -/
theorem claim_C2 :
    ∃ e, pyGet (buildStore (PyFloat.frac 1 2)
        [("first".data, 1), ("second".data, 2), ("third".data, 3)]) "frst".data none =
        Except.ok [e] ∧
      e.value = some 1 ∧
      e.key = "first".data ∧
      e.correction.length = 1 ∧
      e.correction.map Correction.descr = [descrInsertion 'i'] ∧
      e.correction.map Correction.position = [1] :=
  ⟨⟨some 1, "first".data, [⟨descrInsertion 'i', ⟨99999, 100000⟩, 1⟩], []⟩, by decide⟩

/-- C4: the claim states that `get`/`search` never raise when no match
exists (returning `[]`, also for the empty query) and that `d[query]`
raises `KeyError` exactly when the result set is empty.  The code breaks
this for the empty query on a store whose root holds no value: the wave
loop evaluates `(len(correction) + 1) / len(query)` and raises
`ZeroDivisionError`, which also propagates through `__getitem__` instead
of `KeyError`.  This theorem evaluates the code at that failing input. -/
theorem claim_C4_bug_eval :
    pyGet (setItem defaultFMD "a".data 1) [] none = Except.error PyError.zeroDivisionError ∧
    getItem (setItem defaultFMD "a".data 1) [] = Except.error PyError.zeroDivisionError := by
  decide

/-- C5: the claim states that leaf enumeration produces at most `limit`
entries.  The code decrements the local `topn` only for entries appended
at the current recursion level: the count collected by a recursive call
(line 1060) never reduces the caller's `topn`, so sibling subtrees can
overshoot the limit.  In the store `{"ac": 1, "ad": 2, "b": 3}` the root
enumeration with `limit = 2` yields all three leaves.  (The `limit ≤ 0 →
empty` part of the claim does hold, line 1034.)  This theorem evaluates
the code at that failing input. -/
theorem claim_C5_bug_eval :
    getNodeLeaves (buildStore (PyFloat.ofInt 0)
        [("ac".data, 1), ("ad".data, 2), ("b".data, 3)]).prefixTree [] 2 =
      [⟨"ac".data, 1⟩, ⟨"ad".data, 2⟩, ⟨"b".data, 3⟩] ∧
    getNodeLeaves (buildStore (PyFloat.ofInt 0)
        [("ac".data, 1), ("ad".data, 2), ("b".data, 3)]).prefixTree [] 0 = [] := by
  decide

/-- C9: the claim states that every key reported by `get` spells a
root-to-value-node path of the trie (a key actually inserted).  The code
breaks this in `__apply_transposition`: the free-walk enqueue (source
lines 784–790) builds `path + path + ...`, duplicating the matched
prefix.  In the store `{"xab": 1}` with budget `1/3`, `get("xba")`
reports an entry whose key is `"xxab"`, which was never inserted.  This
theorem evaluates the code at that failing input. -/
theorem claim_C9_bug_eval :
    ∃ l, pyGet (buildStore (PyFloat.frac 1 3) [("xab".data, 1)]) "xba".data none =
        Except.ok l ∧
      "xxab".data ∈ l.map Entry.key ∧
      isStoredKey (buildStore (PyFloat.frac 1 3) [("xab".data, 1)]) "xxab".data = false ∧
      isStoredKey (buildStore (PyFloat.frac 1 3) [("xab".data, 1)]) "xab".data = true :=
  ⟨[⟨some 1, "xab".data, [⟨descrTransposition "ba".data, ⟨1, 1⟩, 1⟩], []⟩,
    ⟨some 1, "xxab".data, [⟨descrTransposition "ba".data, ⟨1, 1⟩, 1⟩], []⟩], by decide⟩

/-- Members of a `tryEnqueue` output are the pre-existing rows or the
candidate row. -/
theorem tryEnqueue_mem {rows : List Row} {processed : Processed} {pos : ℕ}
    {path : Str} {node : Node} {corr : List Correction} {r : Row}
    (h : r ∈ (tryEnqueue rows processed pos path node corr).1) :
    r ∈ rows ∨ r = ⟨pos, path, node, corr⟩ := by
  unfold tryEnqueue at h
  cases hg : aGet processed (pos, path) with
  | none =>
    simp only [hg] at h
    simpa using h
  | some m =>
    simp only [hg] at h
    by_cases hm : m > corr.length
    · rw [if_pos hm] at h
      simpa using h
    · rw [if_neg hm] at h
      exact Or.inl h

/-- `tryEnqueue` preserves the rows it was given. -/
theorem tryEnqueue_sub {rows : List Row} {processed : Processed} {pos : ℕ}
    {path : Str} {node : Node} {corr : List Correction} {r : Row}
    (h : r ∈ rows) : r ∈ (tryEnqueue rows processed pos path node corr).1 := by
  unfold tryEnqueue
  cases hg : aGet processed (pos, path) with
  | none =>
    simp only [hg]
    simpa using Or.inl h
  | some m =>
    simp only [hg]
    by_cases hm : m > corr.length
    · rw [if_pos hm]
      simpa using Or.inl h
    · rw [if_neg hm]
      exact h

/-- When the memo admits the candidate, `tryEnqueue` appends it. -/
theorem tryEnqueue_adds {rows : List Row} {processed : Processed} {pos : ℕ}
    {path : Str} {node : Node} {corr : List Correction}
    (h : ∀ m, aGet processed (pos, path) = some m → corr.length < m) :
    (⟨pos, path, node, corr⟩ : Row) ∈ (tryEnqueue rows processed pos path node corr).1 := by
  unfold tryEnqueue
  cases hg : aGet processed (pos, path) with
  | none => simp [hg]
  | some m =>
    simp only [hg]
    rw [if_pos (h m hg)]
    simp

/-- C6 (counterexample): the claim states that at any position `p` with at
least one remaining query character (`p < len(query)`) and a child matching
`query[p]`, `__apply_as_is` enqueues a successor.  The code requires at
least *two* remaining characters (`position + 1 < len(key)`, line 720), so
at the last query position nothing is enqueued even though the matching
child exists and the memo is empty. -/
theorem claim_C6_counterexample :
    (applyAsIs (Node.mk [('b', Node.mk [] (some 1))] none) "a".data "ab".data 1 [] []).1
      = [] ∧ 1 < ("ab".data : Str).length ∧
    aGet (Node.mk [('b', Node.mk [] (some 1))] none).children (charAt "ab".data 1) =
      some (Node.mk [] (some 1)) := by
  decide

/-- C6 (amended): at any position with at least *two* remaining query
characters (`position + 1 < len(key)`), if the node has a child labelled
`key[position]` and the memo admits the one-step successor (no entry for
its `(position + 1, path + key[position])` key, or one with a strictly
larger correction count), `__apply_as_is` enqueues that successor — and
every row it enqueues (including the free-exact-walk successor) carries
exactly the unchanged correction list: no budget is consumed and no
correction is appended. -/
theorem claim_C6_amended (node : Node) (path key : Str) (position : ℕ)
    (processed : Processed) (correction : List Correction) (child : Node)
    (h1 : position + 1 < key.length)
    (h2 : aGet node.children (charAt key position) = some child)
    (h3 : ∀ m, aGet processed (position + 1, path ++ [charAt key position]) = some m →
      correction.length < m) :
    (⟨position + 1, path ++ [charAt key position], child, correction⟩ : Row) ∈
      (applyAsIs node path key position processed correction).1 ∧
    ∀ r ∈ (applyAsIs node path key position processed correction).1,
      r.correction = correction := by
  have hne : 0 < node.children.length := by
    cases hcs : node.children with
    | nil => rw [hcs] at h2; simp [aGet] at h2
    | cons hd tl => simp
  unfold applyAsIs
  rw [if_pos ⟨h1, hne⟩, h2]
  constructor
  · exact tryEnqueue_sub (tryEnqueue_adds h3)
  · intro r hr
    rcases tryEnqueue_mem hr with hr1 | hr1
    · rcases tryEnqueue_mem hr1 with hr2 | hr2
      · simp at hr2
      · rw [hr2]
    · rw [hr1]

/-- C6 (witness): the amended statement at a concrete node and query. -/
theorem claim_C6_witness :
    (⟨1, "a".data, Node.mk [] (some 5), []⟩ : Row) ∈
      (applyAsIs (Node.mk [('a', Node.mk [] (some 5))] none) [] "ab".data 0 [] []).1 ∧
    ∀ r ∈ (applyAsIs (Node.mk [('a', Node.mk [] (some 5))] none) [] "ab".data 0 [] []).1,
      r.correction = ([] : List Correction) :=
  claim_C6_amended (Node.mk [('a', Node.mk [] (some 5))] none) [] "ab".data 0 [] []
    (Node.mk [] (some 5)) (by decide) (by decide)
    (fun m hm => by simp [aGet] at hm)

/-! ## Invariants of the `search` post-processing loops (claim C8) -/

/-- Specification of the inner leaf loop of `search`: entries are appended
after `top`, marked `is_leaf`, carry the supplied correction list, come
from the supplied leaves, and the key-dedup/topn-cap invariants are
maintained. -/
theorem searchLeafLoop_spec (topn : ℤ) (corr : List Correction) :
    ∀ (leaves : List Leaf) (top : List SEntry) (keys : List Str),
      (top.length : ℤ) < topn →
      (top.map SEntry.key).Nodup →
      (∀ e ∈ top, e.key ∈ keys) →
      (∃ add, (searchLeafLoop topn corr leaves top keys).1 = top ++ add ∧
        ∀ e ∈ add, e.is_leaf = true ∧ e.correction = corr ∧
          ∃ lf ∈ leaves, e.key = lf.key ∧ e.value = some lf.value) ∧
      ((searchLeafLoop topn corr leaves top keys).1.map SEntry.key).Nodup ∧
      (∀ e ∈ (searchLeafLoop topn corr leaves top keys).1,
        e.key ∈ (searchLeafLoop topn corr leaves top keys).2.1) ∧
      (((searchLeafLoop topn corr leaves top keys).1.length : ℤ) ≤ topn) ∧
      ((searchLeafLoop topn corr leaves top keys).2.2 = false →
        ((searchLeafLoop topn corr leaves top keys).1.length : ℤ) < topn) := by
  intro leaves
  induction leaves with
  | nil =>
    intro top keys h1 h2 h3
    exact ⟨⟨[], by simp [searchLeafLoop], by simp⟩, h2, h3, le_of_lt h1, fun _ => h1⟩
  | cons lf rest ih =>
    intro top keys h1 h2 h3
    have hstep : searchLeafLoop topn corr (lf :: rest) top keys =
        if lf.key ∈ keys then searchLeafLoop topn corr rest top keys
        else
          if topn ≤ ((top ++ [(⟨some lf.value, lf.key, corr, true⟩ : SEntry)]).length : ℤ) then
            (top ++ [(⟨some lf.value, lf.key, corr, true⟩ : SEntry)], lf.key :: keys, true)
          else searchLeafLoop topn corr rest
            (top ++ [(⟨some lf.value, lf.key, corr, true⟩ : SEntry)]) (lf.key :: keys) := by
      simp only [searchLeafLoop]
    rw [hstep]
    by_cases hk : lf.key ∈ keys
    · rw [if_pos hk]
      obtain ⟨⟨add, ha, hadd⟩, hn, hc, hl, hd⟩ := ih top keys h1 h2 h3
      refine ⟨⟨add, ha, ?_⟩, hn, hc, hl, hd⟩
      intro e he
      obtain ⟨q1, q2, lf', hlf', q3⟩ := hadd e he
      exact ⟨q1, q2, lf', List.mem_cons_of_mem _ hlf', q3⟩
    · rw [if_neg hk]
      have hnodup' : ((top ++ [(⟨some lf.value, lf.key, corr, true⟩ : SEntry)]).map SEntry.key).Nodup := by
        rw [List.map_append]
        refine List.Nodup.append h2 (by simp) ?_
        intro k hk1 hk2
        simp only [List.map_cons, List.map_nil, List.mem_singleton] at hk2
        subst hk2
        obtain ⟨e, he, hek⟩ := List.mem_map.mp hk1
        exact hk (hek ▸ h3 e he)
      have hcov' : ∀ e ∈ top ++ [(⟨some lf.value, lf.key, corr, true⟩ : SEntry)],
          e.key ∈ lf.key :: keys := by
        intro e he
        rcases List.mem_append.mp he with he | he
        · exact List.mem_cons_of_mem _ (h3 e he)
        · simp only [List.mem_singleton] at he
          subst he
          exact List.mem_cons_self _ _
      by_cases hfull : topn ≤ ((top ++ [(⟨some lf.value, lf.key, corr, true⟩ : SEntry)]).length : ℤ)
      · rw [if_pos hfull]
        refine ⟨⟨[(⟨some lf.value, lf.key, corr, true⟩ : SEntry)], rfl, ?_⟩, hnodup', hcov', ?_, ?_⟩
        · intro e he
          simp only [List.mem_singleton] at he
          subst he
          exact ⟨rfl, rfl, lf, List.mem_cons_self lf rest, rfl, rfl⟩
        · show ((top ++ [_]).length : ℤ) ≤ topn
          simp only [List.length_append, List.length_cons, List.length_nil] at h1 ⊢
          omega
        · intro hfalse
          exact absurd hfalse (by simp)
      · rw [if_neg hfull]
        have h1' : ((top ++ [(⟨some lf.value, lf.key, corr, true⟩ : SEntry)]).length : ℤ) < topn := by
          simp only [List.length_append, List.length_cons, List.length_nil] at hfull ⊢
          omega
        obtain ⟨⟨add, ha, hadd⟩, hn, hc, hl, hd⟩ := ih _ _ h1' hnodup' hcov'
        refine ⟨⟨(⟨some lf.value, lf.key, corr, true⟩ : SEntry) :: add, by rw [ha]; simp, ?_⟩, hn, hc, hl, hd⟩
        intro e he
        rcases List.mem_cons.mp he with he | he
        · subst he
          exact ⟨rfl, rfl, lf, List.mem_cons_self lf rest, rfl, rfl⟩
        · obtain ⟨q1, q2, lf', hlf', q3⟩ := hadd e he
          exact ⟨q1, q2, lf', List.mem_cons_of_mem _ hlf', q3⟩

/-- Specification of the second `search` loop: the completion-leaf entries
it appends are `is_leaf`, sourced from some input item's leaves, and carry
that item's correction list; distinct-by-key and the `topn` cap hold. -/
theorem searchLoop2_spec (topn : ℤ) :
    ∀ (items : List Entry) (top : List SEntry) (keys : List Str),
      (top.length : ℤ) < topn →
      (top.map SEntry.key).Nodup →
      (∀ e ∈ top, e.key ∈ keys) →
      (∃ add, searchLoop2 topn items top keys = top ++ add ∧
        ∀ e ∈ add, e.is_leaf = true ∧
          ∃ item ∈ items, e.correction = item.correction ∧
            ∃ lf ∈ item.leaves, e.key = lf.key ∧ e.value = some lf.value) ∧
      ((searchLoop2 topn items top keys).map SEntry.key).Nodup ∧
      (((searchLoop2 topn items top keys).length : ℤ) ≤ topn) := by
  intro items
  induction items with
  | nil =>
    intro top keys h1 h2 h3
    exact ⟨⟨[], by simp [searchLoop2], by simp⟩, h2, le_of_lt h1⟩
  | cons item rest ih =>
    intro top keys h1 h2 h3
    have hstep : searchLoop2 topn (item :: rest) top keys =
        if item.leaves.isEmpty then searchLoop2 topn rest top keys
        else
          if (searchLeafLoop topn item.correction item.leaves top keys).2.2 then
            (searchLeafLoop topn item.correction item.leaves top keys).1
          else searchLoop2 topn rest
            (searchLeafLoop topn item.correction item.leaves top keys).1
            (searchLeafLoop topn item.correction item.leaves top keys).2.1 := by
      simp only [searchLoop2]
    rw [hstep]
    by_cases hemp : item.leaves.isEmpty
    · rw [if_pos hemp]
      obtain ⟨⟨add, ha, hadd⟩, hn, hl⟩ := ih top keys h1 h2 h3
      refine ⟨⟨add, ha, ?_⟩, hn, hl⟩
      intro e he
      obtain ⟨q1, item', hitem', q⟩ := hadd e he
      exact ⟨q1, item', List.mem_cons_of_mem _ hitem', q⟩
    · rw [if_neg hemp]
      obtain ⟨⟨add1, ha1, hadd1⟩, hn1, hc1, hl1, hd1⟩ :=
        searchLeafLoop_spec topn item.correction item.leaves top keys h1 h2 h3
      by_cases hdone : (searchLeafLoop topn item.correction item.leaves top keys).2.2
      · rw [if_pos hdone]
        refine ⟨⟨add1, ha1, ?_⟩, hn1, hl1⟩
        intro e he
        obtain ⟨q1, q2, lf, hlf, q3⟩ := hadd1 e he
        exact ⟨q1, item, List.mem_cons_self item rest, q2, lf, hlf, q3⟩
      · rw [if_neg hdone]
        have hd1' := hd1 (Bool.not_eq_true _ ▸ (by simpa using hdone))
        obtain ⟨⟨add2, ha2, hadd2⟩, hn2, hl2⟩ := ih _ _ hd1' hn1 hc1
        refine ⟨⟨add1 ++ add2, by rw [ha2, ha1, List.append_assoc], ?_⟩, hn2, hl2⟩
        intro e he
        rcases List.mem_append.mp he with he | he
        · obtain ⟨q1, q2, lf, hlf, q3⟩ := hadd1 e he
          exact ⟨q1, item, List.mem_cons_self item rest, q2, lf, hlf, q3⟩
        · obtain ⟨q1, item', hitem', q⟩ := hadd2 e he
          exact ⟨q1, item', List.mem_cons_of_mem _ hitem', q⟩

/-- Specification of the first `search` loop: the entries it emits are the
distinct-by-key fuzzy matches, in order, marked `is_leaf = false`, within
the `topn` cap. -/
theorem searchLoop1_spec (topn : ℤ) :
    ∀ (items : List Entry) (top : List SEntry) (keys : List Str),
      (top.length : ℤ) < topn →
      (top.map SEntry.key).Nodup →
      (∀ e ∈ top, e.key ∈ keys) →
      (∃ add, (searchLoop1 topn items top keys).1 = top ++ add ∧
        ∀ e ∈ add, e.is_leaf = false) ∧
      ((searchLoop1 topn items top keys).1.map SEntry.key).Nodup ∧
      (∀ e ∈ (searchLoop1 topn items top keys).1,
        e.key ∈ (searchLoop1 topn items top keys).2.1) ∧
      (((searchLoop1 topn items top keys).1.length : ℤ) ≤ topn) ∧
      ((searchLoop1 topn items top keys).2.2 = false →
        ((searchLoop1 topn items top keys).1.length : ℤ) < topn) := by
  intro items
  induction items with
  | nil =>
    intro top keys h1 h2 h3
    exact ⟨⟨[], by simp [searchLoop1], by simp⟩, h2, h3, le_of_lt h1, fun _ => h1⟩
  | cons item rest ih =>
    intro top keys h1 h2 h3
    have hstep : searchLoop1 topn (item :: rest) top keys =
        if item.value = none ∨ item.key ∈ keys then searchLoop1 topn rest top keys
        else
          if topn ≤ ((top ++ [(⟨item.value, item.key, item.correction, false⟩ : SEntry)]).length : ℤ) then
            (top ++ [(⟨item.value, item.key, item.correction, false⟩ : SEntry)],
              item.key :: keys, true)
          else searchLoop1 topn rest
            (top ++ [(⟨item.value, item.key, item.correction, false⟩ : SEntry)])
            (item.key :: keys) := by
      simp only [searchLoop1]
    rw [hstep]
    by_cases hk : item.value = none ∨ item.key ∈ keys
    · rw [if_pos hk]
      exact ih top keys h1 h2 h3
    · rw [if_neg hk]
      have hkk : item.key ∉ keys := fun hh => hk (Or.inr hh)
      have hnodup' : ((top ++ [(⟨item.value, item.key, item.correction, false⟩ : SEntry)]).map
          SEntry.key).Nodup := by
        rw [List.map_append]
        refine List.Nodup.append h2 (by simp) ?_
        intro k hk1 hk2
        simp only [List.map_cons, List.map_nil, List.mem_singleton] at hk2
        subst hk2
        obtain ⟨e, he, hek⟩ := List.mem_map.mp hk1
        exact hkk (hek ▸ h3 e he)
      have hcov' : ∀ e ∈ top ++ [(⟨item.value, item.key, item.correction, false⟩ : SEntry)],
          e.key ∈ item.key :: keys := by
        intro e he
        rcases List.mem_append.mp he with he | he
        · exact List.mem_cons_of_mem _ (h3 e he)
        · simp only [List.mem_singleton] at he
          subst he
          exact List.mem_cons_self _ _
      by_cases hfull : topn ≤
          ((top ++ [(⟨item.value, item.key, item.correction, false⟩ : SEntry)]).length : ℤ)
      · rw [if_pos hfull]
        refine ⟨⟨[(⟨item.value, item.key, item.correction, false⟩ : SEntry)], rfl, ?_⟩,
          hnodup', hcov', ?_, ?_⟩
        · intro e he
          simp only [List.mem_singleton] at he
          subst he
          rfl
        · show ((top ++ [_]).length : ℤ) ≤ topn
          simp only [List.length_append, List.length_cons, List.length_nil] at h1 ⊢
          omega
        · intro hfalse
          exact absurd hfalse (by simp)
      · rw [if_neg hfull]
        have h1' : ((top ++ [(⟨item.value, item.key, item.correction, false⟩ : SEntry)]).length : ℤ)
            < topn := by
          simp only [List.length_append, List.length_cons, List.length_nil] at hfull ⊢
          omega
        obtain ⟨⟨add, ha, hadd⟩, hn, hc, hl, hd⟩ := ih _ _ h1' hnodup' hcov'
        refine ⟨⟨(⟨item.value, item.key, item.correction, false⟩ : SEntry) :: add,
          by rw [ha]; simp, ?_⟩, hn, hc, hl, hd⟩
        intro e he
        rcases List.mem_cons.mp he with he | he
        · subst he
          rfl
        · exact hadd e he

/-- C8: for every store, query and positive `topn`, when `search` returns
a list: it has at most `topn` entries; their keys are pairwise distinct;
every non-leaf entry precedes every leaf-sourced entry; and each
leaf-sourced entry comes from the completion leaves of some entry of the
underlying `__get` result, carrying that entry's correction list. -/
theorem claim_C8 (d : FMD) (query : Str) (topn : ℤ) (out : List SEntry)
    (hpos : 0 < topn) (h : pySearch d query topn = Except.ok out) :
    ((out.length : ℤ) ≤ topn) ∧
    (out.map SEntry.key).Nodup ∧
    (∃ a b, out = a ++ b ∧ (∀ e ∈ a, e.is_leaf = false) ∧ (∀ e ∈ b, e.is_leaf = true)) ∧
    (∃ res, getInner d query (some topn) (some topn) = Except.ok res ∧
      ∀ e ∈ out, e.is_leaf = true →
        ∃ item ∈ res, e.correction = item.correction ∧
          ∃ lf ∈ item.leaves, e.key = lf.key ∧ e.value = some lf.value) := by
  unfold pySearch at h
  cases hres : getInner d query (some topn) (some topn) with
  | error e => rw [hres] at h; exact absurd h (by simp)
  | ok res =>
    rw [hres] at h
    simp only [] at h
    obtain ⟨⟨add1, ha1, hadd1⟩, hn1, hc1, hl1, hd1⟩ :=
      searchLoop1_spec topn res [] [] (by simpa using hpos) (by simp) (by simp)
    by_cases hdone : (searchLoop1 topn res [] []).2.2
    · rw [if_pos hdone] at h
      cases h
      refine ⟨hl1, hn1, ⟨(searchLoop1 topn res [] []).1, [], by simp, ?_, by simp⟩,
        res, rfl, ?_⟩
      · intro e he
        rw [ha1] at he
        simpa using hadd1 e (by simpa using he)
      · intro e he hleaf
        have := hadd1 e (by rw [ha1] at he; simpa using he)
        rw [this] at hleaf
        exact absurd hleaf (by simp)
    · rw [if_neg hdone] at h
      cases h
      have hlt := hd1 (by simpa using hdone)
      obtain ⟨⟨add2, ha2, hadd2⟩, hn2, hl2⟩ :=
        searchLoop2_spec topn res (searchLoop1 topn res [] []).1
          (searchLoop1 topn res [] []).2.1 hlt hn1 hc1
      refine ⟨hl2, hn2, ⟨(searchLoop1 topn res [] []).1, add2, ha2, ?_, ?_⟩,
        res, rfl, ?_⟩
      · intro e he
        rw [ha1] at he
        simpa using hadd1 e (by simpa using he)
      · intro e he
        exact (hadd2 e he).1
      · intro e he hleaf
        rw [ha2] at he
        rcases List.mem_append.mp he with he | he
        · have := hadd1 e (by rw [ha1] at he; simpa using he)
          rw [this] at hleaf
          exact absurd hleaf (by simp)
        · obtain ⟨q1, item, hitem, q2, lf, hlf, q3⟩ := hadd2 e he
          exact ⟨item, hitem, q2, lf, hlf, q3⟩

/-- C8 (witness): the theorem applied to a concrete store and query. -/
theorem claim_C8_witness :
    0 < (2 : ℤ) ∧ pySearch (buildStore (PyFloat.frac 2 3)
        [("ab".data, 1), ("abc".data, 2), ("abd".data, 3)]) "ab".data 2 =
      Except.ok [⟨some 1, "ab".data, [], false⟩, ⟨some 2, "abc".data, [], true⟩] ∧
    (((([⟨some 1, "ab".data, [], false⟩, ⟨some 2, "abc".data, [], true⟩] : List SEntry).length : ℤ) ≤ 2) ∧
      (([⟨some 1, "ab".data, [], false⟩, ⟨some 2, "abc".data, [], true⟩] : List SEntry).map SEntry.key).Nodup ∧
      (∃ a b, ([⟨some 1, "ab".data, [], false⟩, ⟨some 2, "abc".data, [], true⟩] : List SEntry) = a ++ b ∧
        (∀ e ∈ a, e.is_leaf = false) ∧ (∀ e ∈ b, e.is_leaf = true)) ∧
      (∃ res, getInner (buildStore (PyFloat.frac 2 3)
          [("ab".data, 1), ("abc".data, 2), ("abd".data, 3)]) "ab".data (some 2) (some 2) =
          Except.ok res ∧
        ∀ e ∈ ([⟨some 1, "ab".data, [], false⟩, ⟨some 2, "abc".data, [], true⟩] : List SEntry),
          e.is_leaf = true →
          ∃ item ∈ res, e.correction = item.correction ∧
            ∃ lf ∈ item.leaves, e.key = lf.key ∧ e.value = some lf.value)) :=
  ⟨by decide, by decide,
    claim_C8 (buildStore (PyFloat.frac 2 3) [("ab".data, 1), ("abc".data, 2), ("abd".data, 3)])
      "ab".data 2 [⟨some 1, "ab".data, [], false⟩, ⟨some 2, "abc".data, [], true⟩]
      (by decide) (by decide)⟩

/-! ## The configuration surface (claim C7)

`set_correction_price` (source lines 77–115) and
`set_symbols_probability_distances` (source lines 117–211).  Arguments are
Python objects, so a value may be a float or something else entirely; a
comparison `0.0 <= v <= 1.0` raises `TypeError` on a non-float.  Both
methods run every validation before the first field assignment (the
assignments are lines 115 and 199–211), so a raised validation error
leaves the previously installed cost model untouched; the embedding
mirrors this by returning `Except.error` before constructing the new
state. -/

/-- A Python object passed where a float is expected. -/
inductive PyV where
  | num (q : PyFloat)
  | other
deriving DecidableEq

/-- The numeric content of a validated `PyV` (dead default on `other`). -/
def PyV.toF : PyV → PyFloat
  | .num q => q
  | .other => ⟨0, 1⟩

/-- Well-formedness of an argument: numeric contents have positive
denominators (every Python float does). -/
def PyV.wfV : PyV → Prop
  | .num q => q.wf
  | .other => True

/-- The code's range test `0.0 <= q <= 1.0` on a numeric value. -/
def inRange01 (q : PyFloat) : Bool :=
  PyFloat.le (PyFloat.ofInt 0) q && PyFloat.le q (PyFloat.ofInt 1)

/-- The argument of `set_correction_price`: a `CorrectionPrice` namedtuple
(whose four fields are arbitrary objects) or something else. -/
inductive CPArg where
  | cp (transposition deletion substitution insertion : PyV)
  | other
deriving DecidableEq

/-- Well-formedness of a `set_correction_price` argument. -/
def CPArg.wf : CPArg → Prop
  | .cp t dl sb ins => t.wfV ∧ dl.wfV ∧ sb.wfV ∧ ins.wfV
  | .other => True

/-- `set_correction_price` (source lines 77–115): `TypeError` unless the
argument is a `CorrectionPrice`; the validation comprehension raises
`TypeError` at a non-float price, then `all()` yields `ValueError` on any
out-of-range price; only then is the field assigned. -/
def setCorrectionPrice (d : FMD) (arg : CPArg) : Except PyError FMD :=
  match arg with
  | .other => .error .typeError
  | .cp t dl sb ins =>
    if t = PyV.other ∨ dl = PyV.other ∨ sb = PyV.other ∨ ins = PyV.other then
      .error .typeError
    else if inRange01 dl.toF && inRange01 sb.toF && inRange01 t.toF && inRange01 ins.toF then
      .ok { d with correctionPrice := ⟨t.toF, dl.toF, sb.toF, ins.toF⟩ }
    else .error .valueError

/-- The symmetrization loop (source lines 209–211): for each original key
`(x, y)`, install `(y, x)` with the value of `(x, y)` when absent. -/
def symDistLoop (keys : List (Char × Char)) (acc : List ((Char × Char) × PyFloat)) :
    List ((Char × Char) × PyFloat) :=
  match keys with
  | [] => acc
  | (x, y) :: rest =>
    match aGet acc (y, x) with
    | none => symDistLoop rest (aSet acc (y, x) ((aGet acc (x, y)).getD (PyFloat.ofInt 0)))
    | some _ => symDistLoop rest acc

/-- `set_symbols_probability_distances` (source lines 117–211): validate
the two defaults, then every probability item (a table value that is not a
float raises `TypeError` while the comprehension is built; otherwise any
out-of-range value or non-single-character key makes `all()` false and
raises `ValueError`), then every distance item likewise; only after all
validation are the four fields assigned and the distance table
symmetrized. -/
def setSymbolsProbabilityDistances (d : FMD)
    (symbolProbability : Option (List (Str × PyV))) (defaultSymbolProbability : PyV)
    (symbolsDistance : Option (List ((Str × Str) × PyV))) (defaultSymbolsDistance : PyV) :
    Except PyError FMD :=
  match defaultSymbolProbability with
  | .other => .error .typeError
  | .num dp =>
    if ¬ inRange01 dp then .error .valueError
    else match defaultSymbolsDistance with
    | .other => .error .typeError
    | .num dd =>
      if ¬ inRange01 dd then .error .valueError
      else if (symbolProbability.getD []).any (fun kv => kv.2 = PyV.other) then
        .error .typeError
      else if ¬ (symbolProbability.getD []).all
          (fun kv => inRange01 kv.2.toF && kv.1.length == 1) then
        .error .valueError
      else if (symbolsDistance.getD []).any (fun kv => kv.2 = PyV.other) then
        .error .typeError
      else if ¬ (symbolsDistance.getD []).all
          (fun kv => inRange01 kv.2.toF && kv.1.1.length == 1 && kv.1.2.length == 1) then
        .error .valueError
      else
        .ok { d with
          defaultSymbolProbability := dp,
          defaultSymbolsDistance := dd,
          symbolProbability :=
            (symbolProbability.getD []).map (fun kv => (charAt kv.1 0, kv.2.toF)),
          symbolsDistance :=
            symDistLoop ((symbolsDistance.getD []).map (fun kv => (charAt kv.1.1 0, charAt kv.1.2 0)))
              ((symbolsDistance.getD []).map
                (fun kv => ((charAt kv.1.1 0, charAt kv.1.2 0), kv.2.toF))) }

/-- Spec-side (claim C7): the value is of an invalid type or lies outside
`[0, 1]` as a rational number. -/
def specBad01 : PyV → Prop
  | .other => True
  | .num q => ¬ (0 ≤ q.val ∧ q.val ≤ 1)

/-- Spec-side (claim C7): some weight is invalid (or the argument is not a
`CorrectionPrice` at all). -/
def specInvalidPrice : CPArg → Prop
  | .other => True
  | .cp t dl sb ins => specBad01 t ∨ specBad01 dl ∨ specBad01 sb ∨ specBad01 ins

/-- Spec-side (claim C7): some default or table entry of the
probability/distance configuration is invalid. -/
def specInvalidSymbols (symbolProbability : Option (List (Str × PyV)))
    (defaultSymbolProbability : PyV) (symbolsDistance : Option (List ((Str × Str) × PyV)))
    (defaultSymbolsDistance : PyV) : Prop :=
  specBad01 defaultSymbolProbability ∨ specBad01 defaultSymbolsDistance ∨
  (∃ kv ∈ symbolProbability.getD [], specBad01 kv.2 ∨ kv.1.length ≠ 1) ∨
  (∃ kv ∈ symbolsDistance.getD [], specBad01 kv.2 ∨ kv.1.1.length ≠ 1 ∨ kv.1.2.length ≠ 1)

/-- For well-formed numeric values the code's cross-multiplied range test
agrees with the rational range `[0, 1]`. -/
theorem inRange01_iff (q : PyFloat) (h : q.wf) :
    inRange01 q = true ↔ (0 ≤ q.val ∧ q.val ≤ 1) := by
  have hden : (0 : ℚ) < (q.den : ℚ) := by
    exact_mod_cast h
  unfold inRange01 PyFloat.le PyFloat.val PyFloat.ofInt
  rw [Bool.and_eq_true, decide_eq_true_eq, decide_eq_true_eq]
  constructor
  · rintro ⟨h1, h2⟩
    simp only [zero_mul, mul_one] at h1 h2
    constructor
    · apply div_nonneg _ (le_of_lt hden)
      exact_mod_cast h1
    · rw [div_le_one hden]
      have h2' : q.num ≤ q.den := by omega
      exact_mod_cast h2' 
  · rintro ⟨h1, h2⟩
    constructor
    · simp only [zero_mul, mul_one]
      have := (le_div_iff hden).mp h1
      simpa using this
    · simp only [one_mul, mul_one]
      have h2' : (q.num : ℚ) ≤ (q.den : ℚ) := (div_le_one hden).mp h2
      have h2'' : q.num ≤ q.den := by exact_mod_cast h2'
      omega

/-- A well-formed value fails the claim's validity test exactly when the
code's check rejects it (by type or by range). -/
theorem specBad01_iff (v : PyV) (h : v.wfV) :
    specBad01 v ↔ (v = PyV.other ∨ inRange01 v.toF = false) := by
  cases v with
  | other => simp [specBad01]
  | num q =>
    simp only [specBad01, PyV.toF]
    rw [← inRange01_iff q h]
    constructor
    · intro hbad
      right
      cases hq : inRange01 q with
      | false => rfl
      | true => exact absurd (by rw [hq]) hbad
    · rintro (hq | hq)
      · exact absurd hq (by simp)
      · intro hcon
        rw [hcon] at hq
        exact absurd hq (by simp)

/-- A boolean that is not `true` is `false`. -/
theorem bool_not_true {b : Bool} (h : ¬ b = true) : b = false := by
  cases b
  · rfl
  · exact absurd rfl h

/-- For a well-formed probability table, the claim's per-item invalidity
matches the code's two checks (a non-float value, or `all()` false). -/
theorem probTable_iff (L : List (Str × PyV)) (hw : ∀ kv ∈ L, PyV.wfV kv.2) :
    (∃ kv ∈ L, specBad01 kv.2 ∨ kv.1.length ≠ 1) ↔
      (L.any (fun kv => kv.2 = PyV.other) = true ∨
       L.all (fun kv => inRange01 kv.2.toF && kv.1.length == 1) = false) := by
  constructor
  · rintro ⟨kv, hkv, hbad | hbad⟩
    · rcases (specBad01_iff kv.2 (hw kv hkv)).mp hbad with h | h
      · exact Or.inl (List.any_eq_true.mpr ⟨kv, hkv, by simp [h]⟩)
      · refine Or.inr ?_
        cases hq : L.all (fun kv => inRange01 kv.2.toF && kv.1.length == 1) with
        | false => rfl
        | true =>
          have := List.all_eq_true.mp hq kv hkv
          simp only [Bool.and_eq_true] at this
          rw [this.1] at h
          exact absurd h (by simp)
    · refine Or.inr ?_
      cases hq : L.all (fun kv => inRange01 kv.2.toF && kv.1.length == 1) with
      | false => rfl
      | true =>
        have := List.all_eq_true.mp hq kv hkv
        simp only [Bool.and_eq_true, beq_iff_eq] at this
        exact absurd this.2 hbad
  · rintro (h | h)
    · obtain ⟨kv, hkv, hkvo⟩ := List.any_eq_true.mp h
      simp only [decide_eq_true_eq] at hkvo
      exact ⟨kv, hkv, Or.inl (by rw [hkvo]; trivial)⟩
    · have : ¬ ∀ kv ∈ L, (inRange01 kv.2.toF && kv.1.length == 1) = true := by
        intro hall
        rw [List.all_eq_true.mpr hall] at h
        exact absurd h (by simp)
      push_neg at this
      obtain ⟨kv, hkv, hbad⟩ := this
      have hbad' : inRange01 kv.2.toF = false ∨ (kv.1.length == 1) = false := by
        have hb := bool_not_true hbad
        cases hx : inRange01 kv.2.toF
        · exact Or.inl rfl
        · cases hy : (kv.1.length == 1)
          · exact Or.inr rfl
          · rw [hx, hy] at hb
            exact absurd hb (by simp)
      rcases hbad' with hbad' | hbad'
      · exact ⟨kv, hkv, Or.inl ((specBad01_iff kv.2 (hw kv hkv)).mpr (Or.inr hbad'))⟩
      · refine ⟨kv, hkv, Or.inr ?_⟩
        intro hlen
        rw [hlen] at hbad'
        exact absurd hbad' (by simp)

/-- For a well-formed distance table, the claim's per-item invalidity
matches the code's two checks. -/
theorem distTable_iff (L : List ((Str × Str) × PyV)) (hw : ∀ kv ∈ L, PyV.wfV kv.2) :
    (∃ kv ∈ L, specBad01 kv.2 ∨ kv.1.1.length ≠ 1 ∨ kv.1.2.length ≠ 1) ↔
      (L.any (fun kv => kv.2 = PyV.other) = true ∨
       L.all (fun kv => inRange01 kv.2.toF && kv.1.1.length == 1 && kv.1.2.length == 1)
         = false) := by
  constructor
  · rintro ⟨kv, hkv, hbad⟩
    rcases hbad with hbad | hbad | hbad
    · rcases (specBad01_iff kv.2 (hw kv hkv)).mp hbad with h | h
      · exact Or.inl (List.any_eq_true.mpr ⟨kv, hkv, by simp [h]⟩)
      · refine Or.inr ?_
        cases hq : L.all
            (fun kv => inRange01 kv.2.toF && kv.1.1.length == 1 && kv.1.2.length == 1) with
        | false => rfl
        | true =>
          have := List.all_eq_true.mp hq kv hkv
          simp only [Bool.and_eq_true] at this
          rw [this.1.1] at h
          exact absurd h (by simp)
    · refine Or.inr ?_
      cases hq : L.all
          (fun kv => inRange01 kv.2.toF && kv.1.1.length == 1 && kv.1.2.length == 1) with
      | false => rfl
      | true =>
        have := List.all_eq_true.mp hq kv hkv
        simp only [Bool.and_eq_true, beq_iff_eq] at this
        exact absurd this.1.2 hbad
    · refine Or.inr ?_
      cases hq : L.all
          (fun kv => inRange01 kv.2.toF && kv.1.1.length == 1 && kv.1.2.length == 1) with
      | false => rfl
      | true =>
        have := List.all_eq_true.mp hq kv hkv
        simp only [Bool.and_eq_true, beq_iff_eq] at this
        exact absurd this.2 hbad
  · rintro (h | h)
    · obtain ⟨kv, hkv, hkvo⟩ := List.any_eq_true.mp h
      simp only [decide_eq_true_eq] at hkvo
      exact ⟨kv, hkv, Or.inl (by rw [hkvo]; trivial)⟩
    · have : ¬ ∀ kv ∈ L,
          (inRange01 kv.2.toF && kv.1.1.length == 1 && kv.1.2.length == 1) = true := by
        intro hall
        rw [List.all_eq_true.mpr hall] at h
        exact absurd h (by simp)
      push_neg at this
      obtain ⟨kv, hkv, hbad⟩ := this
      have hbad' : inRange01 kv.2.toF = false ∨ (kv.1.1.length == 1) = false ∨
          (kv.1.2.length == 1) = false := by
        have hb := bool_not_true hbad
        cases hx : inRange01 kv.2.toF
        · exact Or.inl rfl
        · cases hy : (kv.1.1.length == 1)
          · exact Or.inr (Or.inl rfl)
          · cases hz : (kv.1.2.length == 1)
            · exact Or.inr (Or.inr rfl)
            · rw [hx, hy, hz] at hb
              exact absurd hb (by simp)
      rcases hbad' with hbad' | hbad' | hbad'
      · exact ⟨kv, hkv, Or.inl ((specBad01_iff kv.2 (hw kv hkv)).mpr (Or.inr hbad'))⟩
      · refine ⟨kv, hkv, Or.inr (Or.inl ?_)⟩
        intro hlen
        rw [hlen] at hbad'
        exact absurd hbad' (by simp)
      · refine ⟨kv, hkv, Or.inr (Or.inr ?_)⟩
        intro hlen
        rw [hlen] at hbad'
        exact absurd hbad' (by simp)

/-- C7: for every configuration call: it fails (with the validation
exception realizing the spec's `ConfigurationError`: `TypeError` for an
invalid type, `ValueError` for an out-of-range value or malformed key)
exactly when some weight or default lies outside `[0, 1]`, some table
value is invalid or out of range, or some table key is not exactly one
character (or a pair of one-character strings); and a successful call
replaces only the cost-model fields — the source assigns fields only
after all validation has passed, so a failing call leaves the installed
state completely unchanged. -/
theorem claim_C7 :
    (∀ (d : FMD) (arg : CPArg), arg.wf →
      (((∃ e, setCorrectionPrice d arg = Except.error e) ↔ specInvalidPrice arg) ∧
       (∀ d', setCorrectionPrice d arg = Except.ok d' →
         d'.prefixTree = d.prefixTree ∧ d'.maxCorrectionsValue = d.maxCorrectionsValue ∧
         d'.symbolProbability = d.symbolProbability ∧
         d'.defaultSymbolProbability = d.defaultSymbolProbability ∧
         d'.symbolsDistance = d.symbolsDistance ∧
         d'.defaultSymbolsDistance = d.defaultSymbolsDistance))) ∧
    (∀ (d : FMD) (sp : Option (List (Str × PyV))) (dp : PyV)
        (sd : Option (List ((Str × Str) × PyV))) (dd : PyV),
      dp.wfV → dd.wfV → (∀ kv ∈ sp.getD [], PyV.wfV kv.2) → (∀ kv ∈ sd.getD [], PyV.wfV kv.2) →
      (((∃ e, setSymbolsProbabilityDistances d sp dp sd dd = Except.error e) ↔
        specInvalidSymbols sp dp sd dd) ∧
       (∀ d', setSymbolsProbabilityDistances d sp dp sd dd = Except.ok d' →
         d'.prefixTree = d.prefixTree ∧ d'.maxCorrectionsValue = d.maxCorrectionsValue ∧
         d'.correctionPrice = d.correctionPrice))) := by
  constructor
  · intro d arg hw
    cases arg with
    | other =>
      refine ⟨⟨fun _ => trivial, fun _ => ⟨.typeError, rfl⟩⟩, ?_⟩
      intro d' hd'
      exact absurd hd' (by simp [setCorrectionPrice])
    | cp t dl sb ins =>
      obtain ⟨hwt, hwdl, hwsb, hwins⟩ := hw
      by_cases hT : t = PyV.other ∨ dl = PyV.other ∨ sb = PyV.other ∨ ins = PyV.other
      · constructor
        · constructor
          · intro _
            rcases hT with h | h | h | h
            · exact Or.inl (by rw [h]; trivial)
            · exact Or.inr (Or.inl (by rw [h]; trivial))
            · exact Or.inr (Or.inr (Or.inl (by rw [h]; trivial)))
            · exact Or.inr (Or.inr (Or.inr (by rw [h]; trivial)))
          · intro _
            exact ⟨.typeError, by simp [setCorrectionPrice, if_pos hT]⟩
        · intro d' hd'
          simp only [setCorrectionPrice, if_pos hT] at hd'
          exact Except.noConfusion hd'
      · push_neg at hT
        obtain ⟨hT1, hT2, hT3, hT4⟩ := hT
        by_cases hR : (inRange01 dl.toF && inRange01 sb.toF &&
            inRange01 t.toF && inRange01 ins.toF) = true
        · have hok : setCorrectionPrice d (.cp t dl sb ins) =
              Except.ok { d with correctionPrice := ⟨t.toF, dl.toF, sb.toF, ins.toF⟩ } := by
            simp only [setCorrectionPrice,
              if_neg (show ¬ (t = PyV.other ∨ dl = PyV.other ∨ sb = PyV.other ∨ ins = PyV.other)
                from by tauto)]
            rw [if_pos hR]
          simp only [Bool.and_eq_true] at hR
          obtain ⟨⟨⟨hRdl, hRsb⟩, hRt⟩, hRins⟩ := hR
          constructor
          · rw [hok]
            constructor
            · rintro ⟨e, he⟩
              exact absurd he (by simp)
            · intro hinv
              rcases hinv with h | h | h | h
              · rcases (specBad01_iff t hwt).mp h with h | h
                · exact absurd h hT1
                · rw [hRt] at h; exact absurd h (by simp)
              · rcases (specBad01_iff dl hwdl).mp h with h | h
                · exact absurd h hT2
                · rw [hRdl] at h; exact absurd h (by simp)
              · rcases (specBad01_iff sb hwsb).mp h with h | h
                · exact absurd h hT3
                · rw [hRsb] at h; exact absurd h (by simp)
              · rcases (specBad01_iff ins hwins).mp h with h | h
                · exact absurd h hT4
                · rw [hRins] at h; exact absurd h (by simp)
          · intro d' hd'
            rw [hok] at hd'
            cases hd'
            exact ⟨rfl, rfl, rfl, rfl, rfl, rfl⟩
        · have herr : setCorrectionPrice d (.cp t dl sb ins) = Except.error .valueError := by
            simp only [setCorrectionPrice,
              if_neg (show ¬ (t = PyV.other ∨ dl = PyV.other ∨ sb = PyV.other ∨ ins = PyV.other)
                from by tauto)]
            rw [if_neg hR]
          constructor
          · rw [herr]
            refine ⟨fun _ => ?_, fun _ => ⟨_, rfl⟩⟩
            simp only [Bool.and_eq_true, not_and_or] at hR
            rcases hR with ((h | h) | h) | h
            · exact Or.inr (Or.inl ((specBad01_iff dl hwdl).mpr (Or.inr (bool_not_true h))))
            · exact Or.inr (Or.inr (Or.inl ((specBad01_iff sb hwsb).mpr
                (Or.inr (bool_not_true h)))))
            · exact Or.inl ((specBad01_iff t hwt).mpr (Or.inr (bool_not_true h)))
            · exact Or.inr (Or.inr (Or.inr ((specBad01_iff ins hwins).mpr
                (Or.inr (bool_not_true h)))))
          · intro d' hd'
            rw [herr] at hd'
            exact absurd hd' (by simp)
  · intro d sp dp sd dd hwdp hwdd hwsp hwsd
    cases dp with
    | other =>
      refine ⟨⟨fun _ => Or.inl trivial, fun _ => ⟨.typeError, rfl⟩⟩, ?_⟩
      intro d' hd'
      exact absurd hd' (by simp [setSymbolsProbabilityDistances])
    | num qdp =>
      by_cases hdp : inRange01 qdp = true
      swap
      · have herr : setSymbolsProbabilityDistances d sp (.num qdp) sd dd =
            Except.error .valueError := by
          simp [setSymbolsProbabilityDistances, hdp]
        refine ⟨⟨fun _ => ?_, fun _ => herr ▸ ⟨_, rfl⟩⟩, ?_⟩
        · refine Or.inl ((specBad01_iff (.num qdp) hwdp).mpr (Or.inr ?_))
          simp only [PyV.toF]
          exact bool_not_true hdp
        · intro d' hd'
          rw [herr] at hd'
          exact absurd hd' (by simp)
      · have hnb1 : ¬ specBad01 (PyV.num qdp) := by
          intro hb
          rcases (specBad01_iff _ hwdp).mp hb with h | h
          · exact PyV.noConfusion h
          · simp only [PyV.toF] at h
            rw [hdp] at h
            exact absurd h (by simp)
        cases dd with
        | other =>
          have herr : setSymbolsProbabilityDistances d sp (.num qdp) sd .other =
              Except.error .typeError := by
            simp [setSymbolsProbabilityDistances, hdp]
          refine ⟨⟨fun _ => Or.inr (Or.inl trivial), fun _ => herr ▸ ⟨_, rfl⟩⟩, ?_⟩
          intro d' hd'
          rw [herr] at hd'
          exact absurd hd' (by simp)
        | num qdd =>
          by_cases hdd : inRange01 qdd = true
          swap
          · have herr : setSymbolsProbabilityDistances d sp (.num qdp) sd (.num qdd) =
                Except.error .valueError := by
              simp [setSymbolsProbabilityDistances, hdp, hdd]
            refine ⟨⟨fun _ => ?_, fun _ => herr ▸ ⟨_, rfl⟩⟩, ?_⟩
            · refine Or.inr (Or.inl ((specBad01_iff (.num qdd) hwdd).mpr (Or.inr ?_)))
              simp only [PyV.toF]
              exact bool_not_true hdd
            · intro d' hd'
              rw [herr] at hd'
              exact absurd hd' (by simp)
          · have hnb2 : ¬ specBad01 (PyV.num qdd) := by
              intro hb
              rcases (specBad01_iff _ hwdd).mp hb with h | h
              · exact PyV.noConfusion h
              · simp only [PyV.toF] at h
                rw [hdd] at h
                exact absurd h (by simp)
            have hprob := probTable_iff (sp.getD []) hwsp
            have hdist := distTable_iff (sd.getD []) hwsd
            by_cases hPbad : (∃ kv ∈ sp.getD [], specBad01 kv.2 ∨ kv.1.length ≠ 1)
            · have herr : ∃ e, setSymbolsProbabilityDistances d sp (.num qdp) sd (.num qdd) =
                  Except.error e := by
                rcases hprob.mp hPbad with hh | hh
                · exact ⟨.typeError, by simp [setSymbolsProbabilityDistances, hdp, hdd, hh]⟩
                · by_cases hao : (sp.getD []).any (fun kv => kv.2 = PyV.other) = true
                  · exact ⟨.typeError, by simp [setSymbolsProbabilityDistances, hdp, hdd, hao]⟩
                  · refine ⟨.valueError, ?_⟩
                    simp only [setSymbolsProbabilityDistances]
                    rw [if_neg (by simp [hdp]), if_neg (by simp [hdd]),
                      if_neg (by simp [hao]), if_pos (by simp [hh])]
              refine ⟨⟨fun _ => Or.inr (Or.inr (Or.inl hPbad)), fun _ => herr⟩, ?_⟩
              intro d' hd'
              obtain ⟨e, he⟩ := herr
              rw [he] at hd'
              exact absurd hd' (by simp)
            · have hao : (sp.getD []).any (fun kv => kv.2 = PyV.other) = false := by
                cases hq : (sp.getD []).any (fun kv => kv.2 = PyV.other) with
                | false => rfl
                | true => exact absurd (hprob.mpr (Or.inl hq)) hPbad
              have hal : (sp.getD []).all
                  (fun kv => inRange01 kv.2.toF && kv.1.length == 1) = true := by
                cases hq : (sp.getD []).all (fun kv => inRange01 kv.2.toF && kv.1.length == 1) with
                | true => rfl
                | false => exact absurd (hprob.mpr (Or.inr hq)) hPbad
              by_cases hDbad : (∃ kv ∈ sd.getD [],
                  specBad01 kv.2 ∨ kv.1.1.length ≠ 1 ∨ kv.1.2.length ≠ 1)
              · have herr : ∃ e, setSymbolsProbabilityDistances d sp (.num qdp) sd (.num qdd) =
                    Except.error e := by
                  rcases hdist.mp hDbad with hh | hh
                  · exact ⟨.typeError,
                      by simp [setSymbolsProbabilityDistances, hdp, hdd, hao, hal, hh]⟩
                  · by_cases hado : (sd.getD []).any (fun kv => kv.2 = PyV.other) = true
                    · exact ⟨.typeError,
                        by simp [setSymbolsProbabilityDistances, hdp, hdd, hao, hal, hado]⟩
                    · refine ⟨.valueError, ?_⟩
                      simp only [setSymbolsProbabilityDistances]
                      rw [if_neg (by simp [hdp]), if_neg (by simp [hdd]),
                        if_neg (by simp [hao]), if_neg (by simp [hal]),
                        if_neg (by simp [hado]), if_pos (by simp [hh])]
                refine ⟨⟨fun _ => Or.inr (Or.inr (Or.inr hDbad)), fun _ => herr⟩, ?_⟩
                intro d' hd'
                obtain ⟨e, he⟩ := herr
                rw [he] at hd'
                exact absurd hd' (by simp)
              · have hado : (sd.getD []).any (fun kv => kv.2 = PyV.other) = false := by
                  cases hq : (sd.getD []).any (fun kv => kv.2 = PyV.other) with
                  | false => rfl
                  | true => exact absurd (hdist.mpr (Or.inl hq)) hDbad
                have hadl : (sd.getD []).all
                    (fun kv => inRange01 kv.2.toF && kv.1.1.length == 1 && kv.1.2.length == 1)
                    = true := by
                  cases hq : (sd.getD []).all
                      (fun kv => inRange01 kv.2.toF && kv.1.1.length == 1 && kv.1.2.length == 1) with
                  | true => rfl
                  | false => exact absurd (hdist.mpr (Or.inr hq)) hDbad
                have hok : setSymbolsProbabilityDistances d sp (.num qdp) sd (.num qdd) =
                    Except.ok { d with
                      defaultSymbolProbability := qdp,
                      defaultSymbolsDistance := qdd,
                      symbolProbability :=
                        (sp.getD []).map (fun kv => (charAt kv.1 0, kv.2.toF)),
                      symbolsDistance :=
                        symDistLoop ((sd.getD []).map
                            (fun kv => (charAt kv.1.1 0, charAt kv.1.2 0)))
                          ((sd.getD []).map
                            (fun kv => ((charAt kv.1.1 0, charAt kv.1.2 0), kv.2.toF))) } := by
                  simp only [setSymbolsProbabilityDistances]
                  rw [if_neg (by simp [hdp]), if_neg (by simp [hdd]), if_neg (by simp [hao]),
                    if_neg (by simp [hal]), if_neg (by simp [hado]), if_neg (by simp [hadl])]
                constructor
                · rw [hok]
                  constructor
                  · rintro ⟨e, he⟩
                    exact absurd he (by simp)
                  · intro hinv
                    rcases hinv with h | h | h | h
                    · exact (hnb1 h).elim
                    · exact (hnb2 h).elim
                    · exact (hPbad h).elim
                    · exact (hDbad h).elim
                · intro d' hd'
                  rw [hok] at hd'
                  cases hd'
                  exact ⟨rfl, rfl, rfl⟩

/-- C7 (witness): a non-`CorrectionPrice` argument and a two-character
probability-table key both make the corresponding configuration call
fail. -/
theorem claim_C7_witness :
    (∃ e, setCorrectionPrice defaultFMD CPArg.other = Except.error e) ∧
    (∃ e, setSymbolsProbabilityDistances defaultFMD
        (some [("ab".data, PyV.num ⟨1, 2⟩)]) (PyV.num ⟨1, 10⟩) none (PyV.num ⟨1, 1⟩) =
      Except.error e) := by
  constructor
  · exact (claim_C7.1 defaultFMD CPArg.other trivial).1.mpr trivial
  · refine (claim_C7.2 defaultFMD (some [("ab".data, PyV.num ⟨1, 2⟩)]) (PyV.num ⟨1, 10⟩)
      none (PyV.num ⟨1, 1⟩) ?_ ?_ ?_ ?_).1.mpr ?_
    · show (0 : ℤ) < 10
      decide
    · show (0 : ℤ) < 1
      decide
    · intro kv hkv
      simp only [Option.getD_some, List.mem_singleton] at hkv
      subst hkv
      show (0 : ℤ) < 2
      decide
    · intro kv hkv
      simp only [Option.getD_none, List.not_mem_nil] at hkv
    · refine Or.inr (Or.inr (Or.inl ⟨("ab".data, PyV.num ⟨1, 2⟩), ?_, Or.inr ?_⟩))
      · simp
      · decide

/-! ## C10: termination of the wave loop

Each pending row carries a query position `pos ≤ len(query)` and a
correction list of length `cnt`; the budget guard (`(cnt + 1) / len <=
max_corrections_value`, with the validated budget in `[0, 1]`) keeps
`cnt + 1 ≤ len` on every row that spawns a correction, so the measure
`(len - pos) * (len + 2) + (len + 1 - cnt)` is bounded by `waveFuel` and
strictly decreases from a row to every row it enqueues: insertion keeps
the position and grows the correction list, every other helper advances
the position by at least one. -/

/-- The wave measure of a row with position `pos` and `cnt` corrections. -/
def rowNu (len pos cnt : ℕ) : ℕ := (len - pos) * (len + 2) + (len + 1 - cnt)

/-- The invariant every enqueued row keeps: position and correction count
bounded by the query length. -/
def RowOK (query : Str) (r : Row) : Prop :=
  r.position ≤ query.length ∧ r.correction.length ≤ query.length

/-- A successor row that advances the position (with no fewer corrections)
or keeps it (with strictly more corrections) strictly shrinks the wave
measure. -/
theorem rowNu_lt {len pos cnt pos' cnt' : ℕ}
    (hp' : pos' ≤ len) (hc : cnt ≤ len)
    (hstep : (pos < pos' ∧ cnt ≤ cnt') ∨ (pos = pos' ∧ cnt < cnt')) :
    rowNu len pos' cnt' < rowNu len pos cnt := by
  unfold rowNu
  rcases hstep with ⟨h1, _⟩ | ⟨rfl, h2⟩
  · have ha : (len - pos') + 1 ≤ len - pos := by omega
    have hb : ((len - pos') + 1) * (len + 2) ≤ (len - pos) * (len + 2) :=
      Nat.mul_le_mul_right _ ha
    rw [Nat.succ_mul] at hb
    have hx : (len - pos') * (len + 2) + (len + 1 - cnt') <
        (len - pos') * (len + 2) + (len + 2) :=
      Nat.add_lt_add_left (by omega) _
    calc (len - pos') * (len + 2) + (len + 1 - cnt')
        < (len - pos') * (len + 2) + (len + 2) := hx
      _ ≤ (len - pos) * (len + 2) := hb
      _ ≤ (len - pos) * (len + 2) + (len + 1 - cnt) := Nat.le_add_right _ _
  · exact Nat.add_lt_add_left (by omega) _

/-- The measure of any in-invariant row is below `waveFuel`. -/
theorem rowNu_lt_waveFuel (query : Str) (r : Row) (h : RowOK query r) :
    rowNu query.length r.position r.correction.length < waveFuel query := by
  unfold rowNu waveFuel
  have h2 : (query.length - r.position) * (query.length + 2) ≤
      query.length * (query.length + 2) :=
    Nat.mul_le_mul_right _ (Nat.sub_le _ _)
  have h3 : query.length + 1 - r.correction.length ≤ query.length + 1 :=
    Nat.sub_le _ _
  have h4 : (query.length - r.position) * (query.length + 2) +
      (query.length + 1 - r.correction.length) ≤
      query.length * (query.length + 2) + (query.length + 1) :=
    Nat.add_le_add h2 h3
  have h5 : query.length * (query.length + 2) + (query.length + 1) <
      query.length * (query.length + 2) + query.length + 2 := by
    rw [Nat.add_assoc]
    exact Nat.add_lt_add_left (by omega) _
  exact lt_of_le_of_lt h4 h5

/-- The budget guard `(cnt + 1) / len <= max_corrections_value` (source
line 582), for a validated budget in `[0, 1]`, bounds the correction count
of every row that may spawn a correction: `cnt + 1 ≤ len`. -/
theorem budget_le (c len : ℕ) (b : PyFloat) (hwf : b.wf) (hle : b.num ≤ b.den)
    (h : PyFloat.le (PyFloat.frac ((c : ℤ) + 1) (len : ℤ)) b = true) :
    c + 1 ≤ len := by
  have h' : ((c : ℤ) + 1) * b.den ≤ b.num * (len : ℤ) := of_decide_eq_true h
  have hwf' : (0 : ℤ) < b.den := hwf
  have h2 : b.num * (len : ℤ) ≤ b.den * (len : ℤ) :=
    mul_le_mul_of_nonneg_right hle (Int.natCast_nonneg len)
  have h4 : ((c : ℤ) + 1) ≤ (len : ℤ) :=
    le_of_mul_le_mul_right (by linarith) hwf'
  exact_mod_cast h4

/-- The free exact walk never moves the position backwards. -/
theorem applyString_go_ge :
    ∀ (l : List Char) (n : Node) (pos : ℕ), pos ≤ (applyString.go n l pos).2 := by
  intro l
  induction l with
  | nil => intro n pos; exact le_refl _
  | cons c rest ih =>
    intro n pos
    show pos ≤ (match aGet n.children c with
      | none => (n, pos)
      | some n1 => applyString.go n1 rest (pos + 1)).2
    cases hg : aGet n.children c with
    | none => exact le_refl _
    | some n1 => exact le_trans (Nat.le_succ pos) (ih n1 (pos + 1))

/-- The free exact walk consumes at most the remaining characters. -/
theorem applyString_go_le :
    ∀ (l : List Char) (n : Node) (pos : ℕ),
      (applyString.go n l pos).2 ≤ pos + l.length := by
  intro l
  induction l with
  | nil => intro n pos; exact Nat.le_add_right pos 0
  | cons c rest ih =>
    intro n pos
    show (match aGet n.children c with
      | none => (n, pos)
      | some n1 => applyString.go n1 rest (pos + 1)).2 ≤ pos + (c :: rest).length
    cases hg : aGet n.children c with
    | none => simp
    | some n1 =>
      have := ih n1 (pos + 1)
      simp only [List.length_cons]
      omega

/-- `__apply_string` never moves the position backwards. -/
theorem applyString_ge (node : Node) (s : Str) (position : ℕ) :
    position ≤ (applyString node s position).2 :=
  applyString_go_ge (s.drop position) node position

/-- `__apply_string` never walks past the end of the query. -/
theorem applyString_le (node : Node) (s : Str) (position : ℕ)
    (h : position ≤ s.length) : (applyString node s position).2 ≤ s.length := by
  have h1 := applyString_go_le (s.drop position) node position
  rw [List.length_drop] at h1
  unfold applyString
  omega

/-- When the current query character matches a child, `__apply_string`
advances at least one position. -/
theorem applyString_succ (node : Node) (s : Str) (position : ℕ)
    (hp : position < s.length)
    (hc : (aGet node.children (charAt s position)).isSome) :
    position + 1 ≤ (applyString node s position).2 := by
  unfold applyString
  have hdrop : s.drop position = charAt s position :: s.drop (position + 1) := by
    rw [List.drop_eq_getElem_cons hp]
    congr 1
    exact (List.getD_eq_getElem s '?' hp).symm
  rw [hdrop]
  cases hg : aGet node.children (charAt s position) with
  | none => rw [hg] at hc; simp at hc
  | some n1 =>
    show position + 1 ≤ (match aGet node.children (charAt s position) with
      | none => (node, position)
      | some n1 => applyString.go n1 (s.drop (position + 1)) (position + 1)).2
    rw [hg]
    exact applyString_go_ge _ _ _

/-- Every row `__apply_as_is` enqueues advances the position (by at least
one, never past the query) and keeps the correction list unchanged. -/
theorem applyAsIs_rows (node : Node) (path key : Str) (position : ℕ)
    (processed : Processed) (correction : List Correction)
    (hp : position ≤ key.length) :
    ∀ r ∈ (applyAsIs node path key position processed correction).1,
      r.correction = correction ∧ position + 1 ≤ r.position ∧
        r.position ≤ key.length := by
  intro r hr
  unfold applyAsIs at hr
  by_cases h1 : position + 1 < key.length ∧ 0 < node.children.length
  · rw [if_pos h1] at hr
    cases hg : aGet node.children (charAt key position) with
    | none => rw [hg] at hr; simp at hr
    | some n1 =>
      rw [hg] at hr
      rcases tryEnqueue_mem hr with hr1 | rfl
      · rcases tryEnqueue_mem hr1 with hr2 | rfl
        · simp at hr2
        · exact ⟨rfl, le_refl _, Nat.le_of_lt h1.1⟩
      · refine ⟨rfl, ?_, applyString_le node key position hp⟩
        exact applyString_succ node key position (by omega) (by rw [hg]; rfl)
  · rw [if_neg h1] at hr
    simp at hr

/-- Every row `__apply_transposition` enqueues advances the position past
the swapped pair (never past the query) and appends one correction. -/
theorem applyTransposition_rows (d : FMD) (node : Node) (path query : Str)
    (position : ℕ) (processed : Processed) (correction : List Correction)
    (hp : position + 1 < query.length) :
    ∀ r ∈ (applyTransposition d node path query position processed correction).1,
      r.correction.length = correction.length + 1 ∧ position + 2 ≤ r.position ∧
        r.position ≤ query.length := by
  intro r hr
  unfold applyTransposition at hr
  rw [if_neg (by omega)] at hr
  cases hgm : aGet node.children (charAt query (position + 1)) with
  | none => rw [hgm] at hr; simp at hr
  | some nMid =>
    simp only [hgm] at hr
    cases hg : aGet nMid.children (charAt query position) with
    | none => simp only [hg] at hr; simp at hr
    | some n1 =>
      simp only [hg] at hr
      rcases tryEnqueue_mem hr with hr1 | rfl
      · rcases tryEnqueue_mem hr1 with hr2 | rfl
        · simp at hr2
        · refine ⟨by simp, le_refl _, ?_⟩
          show position + 2 ≤ query.length
          omega
      · refine ⟨by simp, applyString_ge n1 query (position + 2), ?_⟩
        exact applyString_le n1 query (position + 2) (by omega)

/-- Every row `__apply_deletion` enqueues advances the position (never past
the query) and appends one correction. -/
theorem applyDeletion_rows (d : FMD) (node : Node) (path query : Str)
    (position : ℕ) (processed : Processed) (correction : List Correction)
    (hp : position < query.length) :
    ∀ r ∈ (applyDeletion d node path query position processed correction).1,
      r.correction.length = correction.length + 1 ∧ position + 1 ≤ r.position ∧
        r.position ≤ query.length := by
  intro r hr
  unfold applyDeletion at hr
  rcases tryEnqueue_mem hr with hr1 | rfl
  · rcases tryEnqueue_mem hr1 with hr2 | rfl
    · simp at hr2
    · refine ⟨by simp, le_refl _, ?_⟩
      show position + 1 ≤ query.length
      omega
  · refine ⟨by simp, applyString_ge node query (position + 1), ?_⟩
    exact applyString_le node query (position + 1) (by omega)

/-- Every row the `__apply_insertion` child loop enqueues (beyond the rows
it was given) keeps the position in range and appends one correction. -/
theorem applyInsertionGo_rows (d : FMD) (node : Node) (path query : Str)
    (position : ℕ) (correction : List Correction)
    (hp : position ≤ query.length) :
    ∀ (cs : List Char) (processed : Processed) (rows : List Row),
      (∀ r ∈ rows, r.correction.length = correction.length + 1 ∧
        position ≤ r.position ∧ r.position ≤ query.length) →
      ∀ r ∈ (applyInsertionGo d node path query position correction
          cs processed rows).1,
        r.correction.length = correction.length + 1 ∧ position ≤ r.position ∧
          r.position ≤ query.length := by
  intro cs
  induction cs with
  | nil => intro processed rows hrows r hr; exact hrows r hr
  | cons c rest ih =>
    intro processed rows hrows r hr
    unfold applyInsertionGo at hr
    cases hg : aGet node.children c with
    | none =>
      rw [hg] at hr
      exact ih processed rows hrows r hr
    | some n1 =>
      rw [hg] at hr
      refine ih _ _ ?_ r hr
      intro x hx
      rcases tryEnqueue_mem hx with hx1 | rfl
      · rcases tryEnqueue_mem hx1 with hx2 | rfl
        · exact hrows x hx2
        · exact ⟨by simp, le_refl _, hp⟩
      · refine ⟨by simp, applyString_ge n1 query position, ?_⟩
        exact applyString_le n1 query position hp

/-- Every row `__apply_insertion` enqueues keeps the position in range and
appends one correction. -/
theorem applyInsertion_rows (d : FMD) (node : Node) (path query : Str)
    (position : ℕ) (processed : Processed) (correction : List Correction)
    (hp : position ≤ query.length) :
    ∀ r ∈ (applyInsertion d node path query position processed correction).1,
      r.correction.length = correction.length + 1 ∧ position ≤ r.position ∧
        r.position ≤ query.length := by
  intro r hr
  unfold applyInsertion at hr
  by_cases h0 : (aKeys node.children).length = 0
  · rw [if_pos h0] at hr; simp at hr
  · rw [if_neg h0] at hr
    exact applyInsertionGo_rows d node path query position correction hp _
      processed [] (by intro x hx; simp at hx) r hr

/-- Every row the `__apply_substitution` child loop enqueues (beyond the
rows it was given) advances the position and appends one correction. -/
theorem applySubstitutionGo_rows (d : FMD) (node : Node) (path query : Str)
    (position : ℕ) (correction : List Correction)
    (hp : position < query.length) :
    ∀ (cs : List Char) (processed : Processed) (rows : List Row),
      (∀ r ∈ rows, r.correction.length = correction.length + 1 ∧
        position + 1 ≤ r.position ∧ r.position ≤ query.length) →
      ∀ r ∈ (applySubstitutionGo d node path query position correction
          cs processed rows).1,
        r.correction.length = correction.length + 1 ∧
          position + 1 ≤ r.position ∧ r.position ≤ query.length := by
  intro cs
  induction cs with
  | nil => intro processed rows hrows r hr; exact hrows r hr
  | cons c rest ih =>
    intro processed rows hrows r hr
    unfold applySubstitutionGo at hr
    by_cases hc : c = charAt query position
    · rw [if_pos hc] at hr
      exact ih processed rows hrows r hr
    · rw [if_neg hc] at hr
      cases hg : aGet node.children c with
      | none =>
        rw [hg] at hr
        exact ih processed rows hrows r hr
      | some n1 =>
        rw [hg] at hr
        refine ih _ _ ?_ r hr
        intro x hx
        rcases tryEnqueue_mem hx with hx1 | rfl
        · rcases tryEnqueue_mem hx1 with hx2 | rfl
          · exact hrows x hx2
          · refine ⟨by simp, le_refl _, ?_⟩
            show position + 1 ≤ query.length
            omega
        · refine ⟨by simp, applyString_ge n1 query (position + 1), ?_⟩
          exact applyString_le n1 query (position + 1) (by omega)

/-- Every row `__apply_substitution` enqueues advances the position and
appends one correction. -/
theorem applySubstitution_rows (d : FMD) (node : Node) (path query : Str)
    (position : ℕ) (processed : Processed) (correction : List Correction)
    (hp : position < query.length) :
    ∀ r ∈ (applySubstitution d node path query position processed correction).1,
      r.correction.length = correction.length + 1 ∧ position + 1 ≤ r.position ∧
        r.position ≤ query.length := by
  intro r hr
  unfold applySubstitution at hr
  exact applySubstitutionGo_rows d node path query position correction hp _
    processed [] (by intro x hx; simp at hx) r hr

/-- Every row the wave body enqueues from an in-invariant row (beyond the
rows already accumulated) is in-invariant and has a strictly smaller wave
measure than its parent. -/
theorem processRow_new (d : FMD) (query : Str) (topnLeaves : Option ℤ)
    (hwf : PyFloat.wf d.maxCorrectionsValue)
    (hble : d.maxCorrectionsValue.num ≤ d.maxCorrectionsValue.den)
    (st : ResultDict × Processed × List Row) (r : Row)
    (hr : RowOK query r) :
    ∀ x ∈ (processRow d query topnLeaves st r).2.2,
      x ∈ st.2.2 ∨ (RowOK query x ∧
        rowNu query.length x.position x.correction.length <
          rowNu query.length r.position r.correction.length) := by
  intro x hx
  simp only [processRow, List.append_assoc, List.mem_append] at hx
  rcases hx with hx | hx | hx | hx | hx | hx
  · exact Or.inl hx
  · obtain ⟨hcorr, hge, hle⟩ :=
      applyAsIs_rows r.node r.path query r.position st.2.1 r.correction hr.1 x hx
    refine Or.inr ⟨⟨hle, hcorr ▸ hr.2⟩, ?_⟩
    exact rowNu_lt hle hr.2 (Or.inl ⟨by omega, by rw [hcorr]⟩)
  · split at hx
    next hgB =>
      have hc1 : r.correction.length + 1 ≤ query.length :=
        budget_le r.correction.length query.length d.maxCorrectionsValue hwf hble hgB.1
      obtain ⟨hcorr, hge, hle⟩ :=
        applyInsertion_rows d r.node r.path query r.position _ r.correction hr.1 x hx
      refine Or.inr ⟨⟨hle, by omega⟩, ?_⟩
      apply rowNu_lt hle hr.2
      rcases Nat.lt_or_ge r.position x.position with hlt | hge2
      · exact Or.inl ⟨hlt, by omega⟩
      · exact Or.inr ⟨le_antisymm hge hge2, by omega⟩
    next => simp at hx
  · split at hx
    next hgC =>
      have hc1 : r.correction.length + 1 ≤ query.length :=
        budget_le r.correction.length query.length d.maxCorrectionsValue hwf hble hgC.2
      obtain ⟨hcorr, hge, hle⟩ :=
        applySubstitution_rows d r.node r.path query r.position _ r.correction hgC.1 x hx
      refine Or.inr ⟨⟨hle, by omega⟩, ?_⟩
      exact rowNu_lt hle hr.2 (Or.inl ⟨by omega, by omega⟩)
    next => simp at hx
  · split at hx
    next hgD =>
      have hc1 : r.correction.length + 1 ≤ query.length :=
        budget_le r.correction.length query.length d.maxCorrectionsValue hwf hble hgD.2
      obtain ⟨hcorr, hge, hle⟩ :=
        applyDeletion_rows d r.node r.path query r.position _ r.correction hgD.1 x hx
      refine Or.inr ⟨⟨hle, by omega⟩, ?_⟩
      exact rowNu_lt hle hr.2 (Or.inl ⟨by omega, by omega⟩)
    next => simp at hx
  · split at hx
    next hgE =>
      have hc1 : r.correction.length + 1 ≤ query.length :=
        budget_le r.correction.length query.length d.maxCorrectionsValue hwf hble hgE.2.2
      obtain ⟨hcorr, hge, hle⟩ :=
        applyTransposition_rows d r.node r.path query r.position _ r.correction hgE.1 x hx
      refine Or.inr ⟨⟨hle, by omega⟩, ?_⟩
      exact rowNu_lt hle hr.2 (Or.inl ⟨by omega, by omega⟩)
    next => simp at hx

/-- Every row of the next wave is in-invariant and has a strictly smaller
wave measure than some row of the current wave. -/
theorem waveStep_rows (d : FMD) (query : Str) (topnLeaves : Option ℤ)
    (hwf : PyFloat.wf d.maxCorrectionsValue)
    (hble : d.maxCorrectionsValue.num ≤ d.maxCorrectionsValue.den)
    (s : WState) (h : ∀ r ∈ s.rows, RowOK query r) :
    ∀ x ∈ (waveStep d query topnLeaves s).rows,
      RowOK query x ∧ ∃ r ∈ s.rows,
        rowNu query.length x.position x.correction.length <
          rowNu query.length r.position r.correction.length := by
  have main : ∀ (rows : List Row), (∀ r ∈ rows, r ∈ s.rows) →
      ∀ (st : ResultDict × Processed × List Row),
      (∀ x ∈ st.2.2, RowOK query x ∧ ∃ r ∈ s.rows,
        rowNu query.length x.position x.correction.length <
          rowNu query.length r.position r.correction.length) →
      ∀ x ∈ (rows.foldl (processRow d query topnLeaves) st).2.2,
        RowOK query x ∧ ∃ r ∈ s.rows,
          rowNu query.length x.position x.correction.length <
            rowNu query.length r.position r.correction.length := by
    intro rows
    induction rows with
    | nil => intro _ st hst x hx; exact hst x hx
    | cons a as ih =>
      intro hsub st hst x hx
      rw [List.foldl_cons] at hx
      refine ih (fun r hr => hsub r (List.mem_cons_of_mem a hr)) _ ?_ x hx
      intro y hy
      have ha : a ∈ s.rows := hsub a (List.mem_cons_self a as)
      rcases processRow_new d query topnLeaves hwf hble st a (h a ha) y hy with
        hin | ⟨hok, hlt⟩
      · exact hst y hin
      · exact ⟨hok, a, ha, hlt⟩
  intro x hx
  simp only [waveStep] at hx
  exact main s.rows (fun r hr => hr) (s.result, s.processed, [])
    (by intro y hy; simp at hy) x hx

/-- On a state with no pending rows the wave loop is the identity for any
fuel. -/
theorem getLoop_empty (d : FMD) (query : Str) (topnLeaves : Option ℤ)
    (s : WState) (hs : s.rows = []) :
    ∀ fuel, getLoop d query topnLeaves fuel s = s := by
  intro fuel
  cases fuel with
  | zero => rfl
  | succ m =>
    obtain ⟨res, proc, rows⟩ := s
    simp only at hs
    subst hs
    rfl

/-- One unfolding of the wave loop. -/
theorem getLoop_succ (d : FMD) (query : Str) (topnLeaves : Option ℤ)
    (fuel : ℕ) (s : WState) :
    getLoop d query topnLeaves (fuel + 1) s =
      if (waveStep d query topnLeaves s).rows.isEmpty
        then waveStep d query topnLeaves s
        else getLoop d query topnLeaves fuel (waveStep d query topnLeaves s) := rfl

/-- If every pending row has wave measure below `k`, the loop is
insensitive to any fuel of at least `k` and ends with no pending rows. -/
theorem getLoop_stable (d : FMD) (query : Str) (topnLeaves : Option ℤ)
    (hwf : PyFloat.wf d.maxCorrectionsValue)
    (hble : d.maxCorrectionsValue.num ≤ d.maxCorrectionsValue.den) :
    ∀ (k : ℕ) (s : WState), (∀ r ∈ s.rows, RowOK query r) →
      (∀ r ∈ s.rows, rowNu query.length r.position r.correction.length < k) →
      ∀ (fuel fuel' : ℕ), k ≤ fuel → k ≤ fuel' →
      getLoop d query topnLeaves fuel s = getLoop d query topnLeaves fuel' s ∧
        (getLoop d query topnLeaves fuel s).rows = [] := by
  intro k
  induction k using Nat.strong_induction_on with
  | _ k ih =>
    intro s hok hlt fuel fuel' hf hf'
    cases k with
    | zero =>
      have hs : s.rows = [] := by
        cases hrows : s.rows with
        | nil => rfl
        | cons a as =>
          exact absurd (hlt a (by rw [hrows]; exact List.mem_cons_self a as))
            (Nat.not_lt_zero _)
      rw [getLoop_empty d query topnLeaves s hs fuel,
        getLoop_empty d query topnLeaves s hs fuel']
      exact ⟨rfl, hs⟩
    | succ m =>
      cases fuel with
      | zero => omega
      | succ f0 =>
        cases fuel' with
        | zero => omega
        | succ f1 =>
          have hok' : ∀ r ∈ (waveStep d query topnLeaves s).rows, RowOK query r :=
            fun r hr => (waveStep_rows d query topnLeaves hwf hble s hok r hr).1
          have hlt' : ∀ r ∈ (waveStep d query topnLeaves s).rows,
              rowNu query.length r.position r.correction.length < m := by
            intro r hr
            obtain ⟨_, p, hp, hlt2⟩ :=
              waveStep_rows d query topnLeaves hwf hble s hok r hr
            have := hlt p hp
            omega
          rw [getLoop_succ, getLoop_succ]
          by_cases he : (waveStep d query topnLeaves s).rows.isEmpty = true
          · rw [if_pos he, if_pos he]
            exact ⟨rfl, List.isEmpty_iff.mp he⟩
          · rw [if_neg he, if_neg he]
            exact ih m (Nat.lt_succ_self m) (waveStep d query topnLeaves s)
              hok' hlt' f0 f1 (by omega) (by omega)

/-- C10: for every finite trie, every valid configuration (a well-formed
correction budget at most 1, as `set_max_corrections_value` validates) and
every non-empty query, the wave-expansion loop of `__get` terminates: from
any wave whose rows respect the position/correction-count bounds (as the
seed rows do), the loop reaches a wave with no pending rows within
`waveFuel query` iterations, and giving it any more fuel does not change
its result — the memo admits each `(position, path)` key only with a
strictly smaller correction count, and positions and correction counts are
bounded by the query length, so only finitely many waves are produced. -/
theorem claim_C10 (d : FMD) (query : Str) (topnLeaves : Option ℤ)
    (s0 : WState) (hq : query ≠ [])
    (hwf : PyFloat.wf d.maxCorrectionsValue)
    (hble : d.maxCorrectionsValue.num ≤ d.maxCorrectionsValue.den)
    (h0 : ∀ r ∈ s0.rows, RowOK query r)
    (fuel : ℕ) (hf : waveFuel query ≤ fuel) :
    getLoop d query topnLeaves fuel s0 =
      getLoop d query topnLeaves (waveFuel query) s0 ∧
    (getLoop d query topnLeaves (waveFuel query) s0).rows = [] := by
  have h1 := getLoop_stable d query topnLeaves hwf hble (waveFuel query) s0 h0
    (fun r hr => rowNu_lt_waveFuel query r (h0 r hr)) fuel (waveFuel query)
    hf (le_refl _)
  exact ⟨h1.1, h1.1 ▸ h1.2⟩

/-- Witness for C10 at the default store and the seed wave of `__get` for
the query `"ab"`. -/
theorem claim_C10_witness :
    getLoop defaultFMD "ab".data none 12
        ⟨[], [], [⟨0, [], defaultFMD.prefixTree, []⟩]⟩ =
      getLoop defaultFMD "ab".data none (waveFuel "ab".data)
        ⟨[], [], [⟨0, [], defaultFMD.prefixTree, []⟩]⟩ ∧
    (getLoop defaultFMD "ab".data none (waveFuel "ab".data)
        ⟨[], [], [⟨0, [], defaultFMD.prefixTree, []⟩]⟩).rows = [] :=
  claim_C10 defaultFMD "ab".data none
    ⟨[], [], [⟨0, [], defaultFMD.prefixTree, []⟩]⟩
    (by decide)
    (by show (0 : ℤ) < 1; decide)
    (by decide)
    (by
      intro r hr
      cases hr with
      | head => exact ⟨by decide, by decide⟩
      | tail _ h => cases h)
    12 (by decide)

end FuzzyMultiDict
